import Mathlib

/-
Verification of the folder synchronization engine (folder_sync.py).

The filesystem is modelled as an association list from relative paths
(lists of name components) to entries; a file entry carries its byte
content and its modification time, a directory entry carries the mtime
and size reported by stat.  Environment failures (stat/open errors on a
particular entry, failing copy attempts) are modelled by oracles passed
to the engine; the engine itself is a direct translation of the Python
code in src/folder_sync.py.
-/

namespace FolderSync

/-- A filesystem path, as a list of name components (relative to a root
unless stated otherwise). -/
abbrev FPath := List String

/-- A filesystem node: a regular file with its byte content and its
modification time, or a directory with the mtime and size that stat
reports for it. -/
inductive Entry : Type where
  | file : List Nat → Int → Entry
  | dir : Int → Nat → Entry
deriving DecidableEq

/-- A directory tree: an association list from relative paths to entries. -/
abbrev FS := List (FPath × Entry)

/-- Look up the entry stored at a path (first match). -/
def lookupFS (fs : FS) (p : FPath) : Option Entry :=
  match fs with
  | [] => none
  | (q, e) :: t => if q = p then some e else lookupFS t p

/-- Create or overwrite the entry at a path. -/
def setEntry (fs : FS) (p : FPath) (e : Entry) : FS :=
  (p, e) :: fs.filter (fun x => x.1 ≠ p)

/-- Remove the entry at a path (os.remove). -/
def removeKey (fs : FS) (p : FPath) : FS :=
  fs.filter (fun x => x.1 ≠ p)

/-- Boolean path-prefix test. -/
def isPref : FPath → FPath → Bool
  | [], _ => true
  | _ :: _, [] => false
  | a :: as, b :: bs => a = b && isPref as bs

/-- Remove a directory together with its whole subtree (shutil.rmtree). -/
def removeTree (fs : FS) (d : FPath) : FS :=
  fs.filter (fun x => isPref d x.1 = false)

/-- The st_mtime field of an entry. -/
def Entry.statMtime : Entry → Int
  | .file _ m => m
  | .dir m _ => m

/-- The st_size field of an entry (for a file, the length of its content). -/
def Entry.statSize : Entry → Nat
  | .file c _ => c.length
  | .dir _ s => s

/-- Whether the entry is a directory. -/
def isDirE : Entry → Bool
  | .file _ _ => false
  | .dir _ _ => true

/-- Whether the entry stored at a path is a directory. -/
def dirAt (fs : FS) (q : FPath) : Bool :=
  match lookupFS fs q with
  | some e => isDirE e
  | none => false

/-- Every proper nonempty ancestor of the path that exists in the tree is a
directory (the condition under which mkdir with parents succeeds). -/
def prefsCompat (fs : FS) (p : FPath) : Bool :=
  (List.range (p.length - 1)).all (fun i =>
    match lookupFS fs (p.take (i+1)) with
    | some e => isDirE e
    | none => true)

/-- Every proper nonempty ancestor of the path exists in the tree as a
directory (the condition under which opening the path for writing can
succeed). -/
def dirsOk (fs : FS) (p : FPath) : Bool :=
  (List.range (p.length - 1)).all (fun i => dirAt fs (p.take (i+1)))

/-- Well-formed tree: paths are nonempty and distinct, and every proper
nonempty ancestor of a stored path is stored as a directory. -/
def WFt (fs : FS) : Prop :=
  (fs.map Prod.fst).Nodup ∧
  ∀ x ∈ fs, x.1 ≠ [] ∧ ∀ i, i < x.1.length → 0 < i → dirAt fs (x.1.take i) = true

/-- One step of mkdir with parents: create the listed prefixes of d that
are still missing, in order. -/
def mkdirSteps (d : FPath) : List Nat → FS → FS
  | [], fs => fs
  | i :: t, fs =>
    mkdirSteps d t
      (if (lookupFS fs (d.take (i+1))).isSome then fs
       else setEntry fs (d.take (i+1)) (Entry.dir 0 0))

/-- Path.mkdir with parents=True: create the directory and any missing
ancestors. -/
def mkdirParents (fs : FS) (d : FPath) : FS :=
  mkdirSteps d (List.range d.length) fs

/- ------------------------------------------------------------------
MD5 (RFC 1321), used by _compute_hash for content digests.
------------------------------------------------------------------ -/

/-- Truncate to a 32-bit word. -/
def w32 (x : Nat) : Nat := x % 4294967296

/-- Rotate a 32-bit word left by s bits. -/
def rotl32 (x s : Nat) : Nat := w32 (x <<< s) + (x >>> (32 - s))

/-- MD5 auxiliary function F. -/
def md5F (x y z : Nat) : Nat := (x &&& y) ||| ((x ^^^ 4294967295) &&& z)

/-- MD5 auxiliary function G. -/
def md5G (x y z : Nat) : Nat := (x &&& z) ||| (y &&& (z ^^^ 4294967295))

/-- MD5 auxiliary function H. -/
def md5H (x y z : Nat) : Nat := x ^^^ y ^^^ z

/-- MD5 auxiliary function I. -/
def md5I (x y z : Nat) : Nat := y ^^^ (x ||| (z ^^^ 4294967295))

/-- The 64 MD5 sine-derived constants. -/
def md5K : List Nat :=
  [0xd76aa478, 0xe8c7b756, 0x242070db, 0xc1bdceee,
   0xf57c0faf, 0x4787c62a, 0xa8304613, 0xfd469501,
   0x698098d8, 0x8b44f7af, 0xffff5bb1, 0x895cd7be,
   0x6b901122, 0xfd987193, 0xa679438e, 0x49b40821,
   0xf61e2562, 0xc040b340, 0x265e5a51, 0xe9b6c7aa,
   0xd62f105d, 0x02441453, 0xd8a1e681, 0xe7d3fbc8,
   0x21e1cde6, 0xc33707d6, 0xf4d50d87, 0x455a14ed,
   0xa9e3e905, 0xfcefa3f8, 0x676f02d9, 0x8d2a4c8a,
   0xfffa3942, 0x8771f681, 0x6d9d6122, 0xfde5380c,
   0xa4beea44, 0x4bdecfa9, 0xf6bb4b60, 0xbebfbc70,
   0x289b7ec6, 0xeaa127fa, 0xd4ef3085, 0x04881d05,
   0xd9d4d039, 0xe6db99e5, 0x1fa27cf8, 0xc4ac5665,
   0xf4292244, 0x432aff97, 0xab9423a7, 0xfc93a039,
   0x655b59c3, 0x8f0ccc92, 0xffeff47d, 0x85845dd1,
   0x6fa87e4f, 0xfe2ce6e0, 0xa3014314, 0x4e0811a1,
   0xf7537e82, 0xbd3af235, 0x2ad7d2bb, 0xeb86d391]

/-- The 64 MD5 per-round left-rotation amounts. -/
def md5S : List Nat :=
  [7,12,17,22,7,12,17,22,7,12,17,22,7,12,17,22,
   5,9,14,20,5,9,14,20,5,9,14,20,5,9,14,20,
   4,11,16,23,4,11,16,23,4,11,16,23,4,11,16,23,
   6,10,15,21,6,10,15,21,6,10,15,21,6,10,15,21]

/-- Fuel-driven worker for chunksOf; the fuel bounds the number of chunks
still to be produced. -/
def chunksFuel (k : Nat) : Nat → List α → List (List α)
  | 0, _ => []
  | _, [] => []
  | fuel+1, a :: t =>
    if k = 0 then [] else (a :: t).take k :: chunksFuel k fuel ((a :: t).drop k)

/-- Split a list into consecutive chunks of at most k elements (the last
chunk may be shorter); returns no chunks when k is zero. -/
def chunksOf (k : Nat) (l : List α) : List (List α) :=
  chunksFuel k l.length l

/-- One MD5 round applied to the running state. -/
def md5Round (M : List Nat) (st : Nat × Nat × Nat × Nat) (i : Nat) :
    Nat × Nat × Nat × Nat :=
  match st with
  | (a, b, c, d) =>
    let fg : Nat × Nat :=
      if i < 16 then (md5F b c d, i)
      else if i < 32 then (md5G b c d, (5*i + 1) % 16)
      else if i < 48 then (md5H b c d, (3*i + 5) % 16)
      else (md5I b c d, (7*i) % 16)
    let f2 := w32 (fg.1 + a + md5K.getD i 0 + M.getD fg.2 0)
    (d, w32 (b + rotl32 f2 (md5S.getD i 0)), b, c)

/-- Process one 64-byte block. -/
def md5Block (st : Nat × Nat × Nat × Nat) (block : List Nat) :
    Nat × Nat × Nat × Nat :=
  let M := (chunksOf 4 block).map (fun ws =>
    ws.getD 0 0 + 256 * ws.getD 1 0 + 65536 * ws.getD 2 0 + 16777216 * ws.getD 3 0)
  match st, (List.range 64).foldl (md5Round M) st with
  | (a0, b0, c0, d0), (a, b, c, d) =>
    (w32 (a0 + a), w32 (b0 + b), w32 (c0 + c), w32 (d0 + d))

/-- The count little-endian bytes of a value. -/
def leBytes : Nat → Nat → List Nat
  | 0, _ => []
  | n+1, v => (v % 256) :: leBytes n (v / 256)

/-- MD5 padding: append the 0x80 marker, zeros up to 56 mod 64, and the
bit length as 8 little-endian bytes. -/
def md5Pad (msg : List Nat) : List Nat :=
  let len := msg.length
  let z := (120 - ((len + 1) % 64)) % 64
  msg ++ [128] ++ List.replicate z 0 ++ leBytes 8 (len * 8)

/-- The MD5 state after absorbing a whole message. -/
def md5core (msg : List Nat) : Nat × Nat × Nat × Nat :=
  (chunksOf 64 (md5Pad msg)).foldl md5Block
    (1732584193, 4023233417, 2562383102, 271733878)

/-- The 16-byte MD5 digest of a message. -/
def md5bytes (msg : List Nat) : List Nat :=
  match md5core msg with
  | (a, b, c, d) => leBytes 4 a ++ leBytes 4 b ++ leBytes 4 c ++ leBytes 4 d

/-- A hexadecimal digit character. -/
def hexDigit (n : Nat) : Char :=
  Char.ofNat (if n < 10 then 48 + n else 87 + n)

/-- Two hexadecimal digit characters of a byte. -/
def byteHex (b : Nat) : List Char :=
  [hexDigit (b / 16), hexDigit (b % 16)]

/-- The hexadecimal MD5 digest of a whole message, as hashlib's hexdigest
returns it. -/
def md5hex (msg : List Nat) : String :=
  ⟨(md5bytes msg).foldr (fun b acc => byteHex b ++ acc) []⟩

/-- The buffer of an incremental hashlib handle after a sequence of update
calls: update concatenates, and digest hashes the accumulated bytes. -/
def hashlibUpdate (buf chunk : List Nat) : List Nat := buf ++ chunk

/-- FolderSync._compute_hash: read the file in 4096-byte chunks, feed each
chunk to the incremental MD5 handle, and return the hexadecimal digest. -/
def compute_hash (content : List Nat) : String :=
  md5hex ((chunksOf 4096 content).foldl hashlibUpdate [])

/- ------------------------------------------------------------------
The sync engine.
------------------------------------------------------------------ -/

/-- The kinds of exception a single filesystem operation can raise:
FileNotFoundError, PermissionError, or any other exception. -/
inductive Err : Type where
  | notFound : Err
  | permission : Err
  | other : Err
deriving DecidableEq

/-- Observable actions of one run, recorded in order.  Paths in the log
are absolute (root ++ relative path); an operation that mutates the
filesystem names the path it writes or deletes. -/
inductive Op : Type where
  | syncStart : Op
  | syncEnd : Op
  | mkdirOp : FPath → Op
  | hashed : FPath → Op
  | skippedMeta : FPath → Op
  | skippedHash : FPath → Op
  | copied : FPath → FPath → Op
  | copyAttemptFailed : FPath → FPath → Op
  | copyGaveUp : FPath → FPath → Op
  | deletedFile : FPath → Op
  | deletedDir : FPath → Op
  | loggedErr : Err → Op
  | shutdownLogged : Op
deriving DecidableEq

/-- An oracle reporting no per-entry environment failure anywhere. -/
def noErr : FPath → Option Err := fun _ => none

/-- A copy-attempt oracle under which no attempt fails. -/
def noFail : FPath → Nat → Bool := fun _ _ => false

/-- Fuel-driven worker for _copy_file; the fuel bounds the number of
attempts still allowed, attempt numbering and the retry test mirror the
Python code.  An attempt succeeds when the failure oracle allows it and
every ancestor of the destination exists as a directory; a successful
attempt writes the source content and metadata to the destination and
verifies the digests of source and destination (copy2 preserves content
and mtime, so the verification digests agree); a failed attempt leaves
the tree unchanged, is logged, and is retried while attempt is below
max_retries. -/
def copyFuel (flp : Nat → Bool) (S R rel : FPath) (c : List Nat) (m : Int)
    (rep : FS) (maxr : Nat) : Nat → Nat → FS × List Op
  | _, 0 => (rep, [])
  | att, _fuel+1 =>
    if flp att = false ∧ dirsOk rep rel = true then
      (setEntry rep rel (Entry.file c m),
       [Op.hashed (S ++ rel), Op.hashed (R ++ rel), Op.copied (S ++ rel) (R ++ rel)])
    else if att < maxr then
      let r := copyFuel flp S R rel c m rep maxr (att+1) _fuel
      (r.1, Op.copyAttemptFailed (S ++ rel) (R ++ rel) :: r.2)
    else
      (rep, [Op.copyAttemptFailed (S ++ rel) (R ++ rel),
             Op.copyGaveUp (S ++ rel) (R ++ rel)])

/-- FolderSync._copy_file: copy with integrity verification and bounded
retry, never letting an exception escape. -/
def copy_file (flp : Nat → Bool) (S R rel : FPath) (c : List Nat) (m : Int)
    (rep : FS) (maxr att : Nat) : FS × List Op :=
  copyFuel flp S R rel c m rep maxr att (maxr + 1 - att)

/-- Worker for _compare_files, taking the entry found at the destination
path (none when the destination does not exist).  A missing destination
is copied; a destination whose st_mtime and st_size both equal the
source file's is skipped without hashing; otherwise both files are
digested - which raises IsADirectoryError, a kind the phases do not
catch, when the destination is a directory - and the file is copied
exactly when the digests differ.  The copy pipeline runs with the
default max_retries of 3 starting at attempt 1. -/
def compare_core (flp : Nat → Bool) (S R rel : FPath) (c : List Nat) (m : Int)
    (rep : FS) : Option Entry → Except Err (FS × List Op)
  | none =>
    let r := copy_file flp S R rel c m rep 3 1
    Except.ok (r.1, r.2)
  | some (Entry.file dc dm) =>
    if m = dm ∧ c.length = dc.length then
      Except.ok (rep, [Op.skippedMeta (S ++ rel)])
    else if compute_hash c = compute_hash dc then
      Except.ok (rep, [Op.hashed (S ++ rel), Op.hashed (R ++ rel),
                       Op.skippedHash (S ++ rel)])
    else
      let r := copy_file flp S R rel c m rep 3 1
      Except.ok (r.1, Op.hashed (S ++ rel) :: Op.hashed (R ++ rel) :: r.2)
  | some (Entry.dir dm ds) =>
    if m = dm ∧ c.length = ds then
      Except.ok (rep, [Op.skippedMeta (S ++ rel)])
    else Except.error Err.other

/-- FolderSync._compare_files: look the destination up and decide as the
worker describes. -/
def compare_files (flp : Nat → Bool) (S R rel : FPath) (c : List Nat) (m : Int)
    (rep : FS) : Except Err (FS × List Op) :=
  compare_core flp S R rel c m rep (lookupFS rep rel)

/-- Processing of one source entry by _sync_source: a file goes through
_compare_files; a directory whose destination is missing is created with
its missing ancestors (mkdir with parents raises NotADirectoryError, a
non-caught kind, when an existing ancestor is not a directory). -/
def srcStep (flp : Nat → Bool) (S R : FPath) (p : FPath) :
    Entry → FS → Except Err (FS × List Op)
  | Entry.file c m, rep => compare_files flp S R p c m rep
  | Entry.dir _ _, rep =>
    if (lookupFS rep p).isSome then Except.ok (rep, [])
    else if prefsCompat rep p then
      Except.ok (mkdirParents rep p, [Op.mkdirOp (R ++ p)])
    else Except.error Err.other

/-- FolderSync._sync_source: walk the listed source entries in order.
The try/except of the Python code wraps the whole loop: a
FileNotFoundError or PermissionError raised while processing any entry
is logged and ends the phase normally, leaving the remaining entries
unprocessed; any other exception propagates.  The oracle gives the
exception, if any, that the environment raises at each entry. -/
def sync_source_go (σE : FPath → Option Err) (fl : FPath → Nat → Bool)
    (S R : FPath) : List (FPath × Entry) → FS → Except Err (FS × List Op)
  | [], rep => Except.ok (rep, [])
  | (p, e) :: rest, rep =>
    match σE p with
    | some Err.other => Except.error Err.other
    | some er => Except.ok (rep, [Op.loggedErr er])
    | none =>
      match srcStep (fl p) S R p e rep with
      | Except.error Err.other => Except.error Err.other
      | Except.error er => Except.ok (rep, [Op.loggedErr er])
      | Except.ok (rep1, ops1) =>
        match sync_source_go σE fl S R rest rep1 with
        | Except.error er => Except.error er
        | Except.ok (rep2, ops2) => Except.ok (rep2, ops1 ++ ops2)

/-- Processing of one replica entry by _sync_replica once the entry is
known to still exist and the source path check has to run: keep the
entry when its source path exists (whatever the kinds are), otherwise
delete a directory recursively with rmtree and a file with os.remove. -/
def repStep (src : FS) (R : FPath) (p : FPath) (e : Entry) (rep : FS) :
    FS × List Op :=
  if (lookupFS src p).isSome then (rep, [])
  else if isDirE e then (removeTree rep p, [Op.deletedDir (R ++ p)])
  else (removeKey rep p, [Op.deletedFile (R ++ p)])

/-- FolderSync._sync_replica: walk the listed replica entries in order.
An entry that no longer exists (because an ancestor directory was
already removed) is not visited, matching the lazy live traversal of
rglob.  As in the source phase, the try/except wraps the whole loop. -/
def sync_replica_go (ρE : FPath → Option Err) (src : FS) (R : FPath) :
    List (FPath × Entry) → FS → Except Err (FS × List Op)
  | [], rep => Except.ok (rep, [])
  | (p, _) :: rest, rep =>
    match lookupFS rep p with
    | none => sync_replica_go ρE src R rest rep
    | some e =>
      match ρE p with
      | some Err.other => Except.error Err.other
      | some er => Except.ok (rep, [Op.loggedErr er])
      | none =>
        match sync_replica_go ρE src R rest (repStep src R p e rep).1 with
        | Except.error er => Except.error er
        | Except.ok (rep2, ops2) =>
          Except.ok (rep2, (repStep src R p e rep).2 ++ ops2)

/-- Insert an entry into a list sorted by path length, after all entries
of the same length. -/
def insortK (x : FPath × Entry) : List (FPath × Entry) → List (FPath × Entry)
  | [] => [x]
  | y :: t => if x.1.length ≤ y.1.length then x :: y :: t else y :: insortK x t

/-- The order in which rglob yields the entries of a tree: a stable
arrangement in which every directory appears before everything inside
it (ancestors are strictly shorter paths). -/
def traversal : FS → List (FPath × Entry)
  | [] => []
  | x :: t => insortK x (traversal t)

/-- FolderSync._sync_folders: one cycle, logging start and finish; the
source phase runs first, then the replica phase walks the replica tree
the source phase produced. -/
def sync_folders (σE ρE : FPath → Option Err) (fl : FPath → Nat → Bool)
    (S R : FPath) (src rep : FS) : Except Err (FS × List Op) :=
  match sync_source_go σE fl S R (traversal src) rep with
  | Except.error e => Except.error e
  | Except.ok (rep1, ops1) =>
    match sync_replica_go ρE src R (traversal rep1) rep1 with
    | Except.error e => Except.error e
    | Except.ok (rep2, ops2) =>
      Except.ok (rep2, Op.syncStart :: (ops1 ++ ops2) ++ [Op.syncEnd])

/-- Outcome of the outer sync loop: a caught interrupt (normal return), a
crash by an exception the loop does not catch, or exhaustion of the
modelling fuel while still running. -/
inductive LoopResult : Type where
  | interrupted : LoopResult
  | outOfFuel : LoopResult
  | crashed : Err → LoopResult
deriving DecidableEq

/-- FolderSync.start_sync_loop: run cycles forever, sleeping in between;
the try/except KeyboardInterrupt wraps the whole loop, so an interrupt
arriving at iteration k, whether during the cycle (intC) or during the
inter-cycle sleep (intS), is caught, a shutdown message is logged, and
the method returns normally; an exception escaping a cycle is not
caught and crashes the process.  The fuel only bounds how many
iterations of the infinite loop are modelled. -/
def start_sync_loop (intC intS : Nat → Bool) (σE ρE : FPath → Option Err)
    (fl : FPath → Nat → Bool) (S R : FPath) (src : FS) :
    Nat → Nat → FS → LoopResult × FS × List Op
  | 0, _, rep => (LoopResult.outOfFuel, rep, [])
  | fuel+1, k, rep =>
    if intC k then (LoopResult.interrupted, rep, [Op.shutdownLogged])
    else
      match sync_folders σE ρE fl S R src rep with
      | Except.error e => (LoopResult.crashed e, rep, [])
      | Except.ok (rep1, ops1) =>
        if intS k then (LoopResult.interrupted, rep1, ops1 ++ [Op.shutdownLogged])
        else
          let r := start_sync_loop intC intS σE ρE fl S R src fuel (k+1) rep1
          (r.1, r.2.1, ops1 ++ r.2.2)

/- ------------------------------------------------------------------
Instrumentation predicates over the recorded operations.
------------------------------------------------------------------ -/

/-- Whether the operation records a failure (a failed or exhausted copy
attempt, or a logged phase error). -/
def isFailureOp : Op → Bool
  | Op.copyAttemptFailed _ _ => true
  | Op.copyGaveUp _ _ => true
  | Op.loggedErr _ => true
  | _ => false

/-- A run whose log records no failure of any kind. -/
def failFree (ops : List Op) : Bool := ops.all (fun o => !isFailureOp o)

/-- Whether the operation is a copy attempt (successful or failed). -/
def isAttemptOp : Op → Bool
  | Op.copied _ _ => true
  | Op.copyAttemptFailed _ _ => true
  | _ => false

/-- The number of copy attempts recorded in a log. -/
def attemptOps (ops : List Op) : Nat := ops.countP isAttemptOp

/-- Whether the operation is a deletion. -/
def isDeleteOp : Op → Bool
  | Op.deletedFile _ => true
  | Op.deletedDir _ => true
  | _ => false

/-- The path a deletion operation removes, if any. -/
def deleteTarget : Op → Option FPath
  | Op.deletedFile p => some p
  | Op.deletedDir p => some p
  | _ => none

/-- The path an operation writes or deletes, if any (a failed copy
attempt may have partially written its destination, so it counts). -/
def mutTarget : Op → Option FPath
  | Op.mkdirOp p => some p
  | Op.copied _ d => some d
  | Op.copyAttemptFailed _ d => some d
  | Op.deletedFile p => some p
  | Op.deletedDir p => some p
  | _ => none

/-- Once an earlier operation removed the directory d, no later deletion
touches d or anything below it. -/
def noReentry (o1 o2 : Op) : Prop :=
  ∀ d p, o1 = Op.deletedDir d → deleteTarget o2 = some p → isPref d p = false

/-- Deleted directories are removed as one unit: no later deletion in the
log revisits a removed subtree. -/
def noRevisit (ops : List Op) : Prop := List.Pairwise noReentry ops

/-- A replica entry that _compare_files will leave alone: its metadata
matches the source file, or it is a file whose digest matches. -/
def upToDate (c : List Nat) (m : Int) (e : Entry) : Prop :=
  (e.statMtime = m ∧ e.statSize = c.length) ∨
  (∃ dc dm, e = Entry.file dc dm ∧ compute_hash dc = compute_hash c)

/-- Well-formedness of a concrete tree is checkable. -/
instance decWFt (fs : FS) : Decidable (WFt fs) := by
  have h : ((fs.map Prod.fst).Nodup ∧
      ∀ x ∈ fs, x.1 ≠ [] ∧ ∀ i ∈ List.range x.1.length, 0 < i →
        dirAt fs (x.1.take i) = true) ↔ WFt fs := by
    unfold WFt
    constructor
    · rintro ⟨h1, h2⟩
      exact ⟨h1, fun x hx => ⟨(h2 x hx).1,
        fun i hi hp => (h2 x hx).2 i (List.mem_range.mpr hi) hp⟩⟩
    · rintro ⟨h1, h2⟩
      exact ⟨h1, fun x hx => ⟨(h2 x hx).1,
        fun i hi hp => (h2 x hx).2 i (List.mem_range.mp hi) hp⟩⟩
  exact decidable_of_iff _ h

/-- Concrete source tree for the C4 counterexample: two files directly
under the source root. -/
def c4src : FS := [(["a.txt"], Entry.file [1] 0), (["b.txt"], Entry.file [2] 0)]

/-- Oracle raising PermissionError while the first source entry is
processed. -/
def c4errPerm : FPath → Option Err :=
  fun p => if p = ["a.txt"] then some Err.permission else none

/-- Oracle raising an unexpected exception kind while the first source
entry is processed. -/
def c4errOther : FPath → Option Err :=
  fun p => if p = ["a.txt"] then some Err.other else none

/-- Source tree of the C1 and C6 witness scenario: directory a holding
file a/b.txt with content "hello". -/
def w1src : FS :=
  [(["a"], Entry.dir 1 0),
   (["a", "b.txt"], Entry.file [104, 101, 108, 108, 111] 7)]

/-- The replica tree after one benign cycle of the witness scenario. -/
def w1rep2 : FS :=
  [(["a", "b.txt"], Entry.file [104, 101, 108, 108, 111] 7),
   (["a"], Entry.dir 0 0)]

/-- The operation log of the witness cycle. -/
def w1ops : List Op :=
  [Op.syncStart, Op.mkdirOp ["R", "a"], Op.hashed ["S", "a", "b.txt"],
   Op.hashed ["R", "a", "b.txt"],
   Op.copied ["S", "a", "b.txt"] ["R", "a", "b.txt"], Op.syncEnd]

/-- Source tree of the C3 witness scenario. -/
def w3src : FS := [(["s"], Entry.file [1] 0)]

/-- Stale replica tree of the C3 witness scenario: a stale directory d
with a file d/x inside it. -/
def w3rep : FS := [(["d"], Entry.dir 0 0), (["d", "x"], Entry.file [2] 0)]

/-- The replica tree after the C3 witness cycle. -/
def w3rep2 : FS := [(["s"], Entry.file [1] 0)]

/-- The operation log of the C3 witness cycle: the stale directory goes
in one rmtree and its inner file is never deleted individually. -/
def w3ops : List Op :=
  [Op.syncStart, Op.hashed ["S", "s"], Op.hashed ["R", "s"],
   Op.copied ["S", "s"] ["R", "s"], Op.deletedDir ["R", "d"], Op.syncEnd]

/-- Source tree of the C9 witness: the source has a FILE named d while
the replica has a DIRECTORY named d. -/
def w9src : FS := [(["d"], Entry.file [1] 2)]

/-- Replica tree of the C9 witness. -/
def w9cur : FS := [(["d"], Entry.dir 0 0), (["d", "x"], Entry.file [3] 0)]

/-- Source tree of the C8 witness. -/
def w8src : FS := [(["f"], Entry.file [1] 0)]

/-- The operation log of the C8 witness cycle. -/
def w8ops : List Op :=
  [Op.syncStart, Op.hashed ["S", "f"], Op.hashed ["R", "f"],
   Op.copied ["S", "f"] ["R", "f"], Op.syncEnd]

/-- Destination tree for the C2 witness metadata-match case: same size
and mtime as the source data but different content. -/
def w2repA : FS := [(["f"], Entry.file [9, 9] 5)]

/-- Destination tree for the C2 witness metadata-mismatch case. -/
def w2repB : FS := [(["f"], Entry.file [9, 9] 6)]

/- ------------------------------------------------------------------
Basic lemmas about the filesystem model.
------------------------------------------------------------------ -/

theorem lookup_filter_key (fs : FS) (f : FPath → Bool) (p : FPath) :
    lookupFS (fs.filter (fun x => f x.1)) p =
      if f p then lookupFS fs p else none := by
  induction fs with
  | nil => cases hf : f p <;> simp [lookupFS, hf]
  | cons a t ih =>
    rw [List.filter_cons]
    cases hf : f a.1
    · rw [if_neg (by simp [hf])]
      rw [ih]
      cases hp : f p
      · simp
      · simp only [if_pos rfl, lookupFS]
        have : a.1 ≠ p := fun hh => by rw [hh, hp] at hf; cases hf
        rw [if_neg this]
    · rw [if_pos (by simp [hf])]
      by_cases hap : a.1 = p
      · subst hap
        simp [lookupFS, hf]
      · simp only [lookupFS, if_neg hap]
        exact ih

theorem lookup_setEntry (fs : FS) (q p : FPath) (e : Entry) :
    lookupFS (setEntry fs q e) p = if q = p then some e else lookupFS fs p := by
  unfold setEntry
  simp only [lookupFS]
  by_cases h : q = p
  · simp [h]
  · simp only [if_neg h]
    have hf := lookup_filter_key fs (fun a => decide (a ≠ q)) p
    have hpq : p ≠ q := fun hh => h hh.symm
    simpa [hpq] using hf

theorem lookup_removeKey (fs : FS) (q p : FPath) :
    lookupFS (removeKey fs q) p = if q = p then none else lookupFS fs p := by
  unfold removeKey
  have hf := lookup_filter_key fs (fun a => decide (a ≠ q)) p
  by_cases h : q = p
  · subst h
    simpa using hf
  · have hpq : p ≠ q := fun hh => h hh.symm
    simp only [if_neg h]
    simpa [hpq] using hf

theorem lookup_removeTree_pref (fs : FS) (d p : FPath) (h : isPref d p = true) :
    lookupFS (removeTree fs d) p = none := by
  unfold removeTree
  have := lookup_filter_key fs (fun a => decide (isPref d a = false)) p
  simp only [] at this
  rw [this]
  simp [h]

theorem lookup_removeTree_not (fs : FS) (d p : FPath) (h : isPref d p = false) :
    lookupFS (removeTree fs d) p = lookupFS fs p := by
  unfold removeTree
  have := lookup_filter_key fs (fun a => decide (isPref d a = false)) p
  rw [this]
  simp [h]

theorem mem_of_lookup {fs : FS} {p : FPath} {e : Entry}
    (h : lookupFS fs p = some e) : (p, e) ∈ fs := by
  induction fs with
  | nil => simp [lookupFS] at h
  | cons a t ih =>
    simp only [lookupFS] at h
    by_cases ha : a.1 = p
    · simp only [if_pos ha] at h
      have : a = (p, e) := by
        rcases a with ⟨a1, a2⟩
        simp at ha h
        simp [ha, h]
      rw [this] at *
      exact List.mem_cons_self _ _
    · simp only [if_neg ha] at h
      exact List.mem_cons_of_mem _ (ih h)

theorem lookup_isSome_of_mem {fs : FS} {p : FPath} {e : Entry}
    (h : (p, e) ∈ fs) : (lookupFS fs p).isSome = true := by
  induction fs with
  | nil => simp at h
  | cons a t ih =>
    rcases List.mem_cons.mp h with h1 | h1
    · simp [lookupFS, ← h1]
    · simp only [lookupFS]
      by_cases ha : a.1 = p
      · simp [ha]
      · simp [ha]
        exact ih h1

theorem lookup_eq_of_mem_nodup {fs : FS} {p : FPath} {e : Entry}
    (hn : (fs.map Prod.fst).Nodup) (h : (p, e) ∈ fs) : lookupFS fs p = some e := by
  induction fs with
  | nil => simp at h
  | cons a t ih =>
    simp only [List.map_cons, List.nodup_cons] at hn
    rcases List.mem_cons.mp h with h1 | h1
    · simp [lookupFS, ← h1]
    · have hap : a.1 ≠ p := by
        intro hh
        exact hn.1 (hh ▸ (List.mem_map.mpr ⟨(p, e), h1, rfl⟩))
      simp only [lookupFS, if_neg hap]
      exact ih hn.2 h1

/- ------------------------------------------------------------------
Lemmas about path prefixes.
------------------------------------------------------------------ -/

theorem isPref_refl (p : FPath) : isPref p p = true := by
  induction p with
  | nil => rfl
  | cons a t ih => simp [isPref, ih]

theorem isPref_append (r a b : FPath) : isPref (r ++ a) (r ++ b) = isPref a b := by
  induction r with
  | nil => rfl
  | cons x t ih => simp [isPref, ih]

theorem isPref_length_le {d p : FPath} (h : isPref d p = true) :
    d.length ≤ p.length := by
  induction d generalizing p with
  | nil => simp
  | cons a t ih =>
    cases p with
    | nil => simp [isPref] at h
    | cons b s =>
      simp only [isPref, Bool.and_eq_true, decide_eq_true_eq] at h
      simpa using ih h.2

theorem isPref_take_eq {d p : FPath} (h : isPref d p = true) :
    p.take d.length = d := by
  induction d generalizing p with
  | nil => simp
  | cons a t ih =>
    cases p with
    | nil => simp [isPref] at h
    | cons b s =>
      simp only [isPref, Bool.and_eq_true, decide_eq_true_eq] at h
      simp [List.take, ih h.2, h.1]

theorem isPref_of_take {p q : FPath} {i : Nat} (h : q = p.take i) :
    isPref q p = true := by
  subst h
  induction p generalizing i with
  | nil => simp [isPref]
  | cons a t ih =>
    cases i with
    | zero => simp [isPref]
    | succ j => simpa [isPref] using ih

theorem isPref_append_cases {S R q : FPath} (h : isPref S (R ++ q) = true) :
    isPref S R = true ∨ isPref R S = true := by
  induction S generalizing R with
  | nil => left; rfl
  | cons a t ih =>
    cases R with
    | nil => right; rfl
    | cons b s =>
      simp only [List.cons_append, isPref, Bool.and_eq_true, decide_eq_true_eq] at h ⊢
      rcases ih h.2 with h1 | h1
      · left; simp [h.1, h1]
      · right; simp [h.1.symm, h1]

/- ------------------------------------------------------------------
Lemmas about the traversal order.
------------------------------------------------------------------ -/

theorem perm_insortK (x : FPath × Entry) (l : List (FPath × Entry)) :
    List.Perm (insortK x l) (x :: l) := by
  induction l with
  | nil => exact List.Perm.refl _
  | cons y t ih =>
    simp only [insortK]
    by_cases h : x.1.length ≤ y.1.length
    · rw [if_pos h]
    · rw [if_neg h]
      exact (ih.cons y).trans (List.Perm.swap x y t)

theorem perm_traversal (fs : FS) : List.Perm (traversal fs) fs := by
  induction fs with
  | nil => exact List.Perm.refl _
  | cons x t ih => exact (perm_insortK x (traversal t)).trans (ih.cons x)

theorem mem_traversal {fs : FS} {x : FPath × Entry} :
    x ∈ traversal fs ↔ x ∈ fs := (perm_traversal fs).mem_iff

theorem nodup_keys_traversal {fs : FS} (h : (fs.map Prod.fst).Nodup) :
    ((traversal fs).map Prod.fst).Nodup :=
  (((perm_traversal fs).map Prod.fst).nodup_iff).mpr h

/- ------------------------------------------------------------------
Lemmas about mkdir with parents.
------------------------------------------------------------------ -/

theorem lookup_mkdirSteps_some {d : FPath} {idx : List Nat} {fs : FS}
    {p : FPath} {e : Entry} (h : lookupFS fs p = some e) :
    lookupFS (mkdirSteps d idx fs) p = some e := by
  induction idx generalizing fs with
  | nil => simpa [mkdirSteps] using h
  | cons i t ih =>
    simp only [mkdirSteps]
    by_cases hs : (lookupFS fs (d.take (i+1))).isSome
    · simp only [if_pos hs]
      exact ih h
    · simp only [if_neg hs]
      apply ih
      rw [lookup_setEntry]
      have hne : d.take (i+1) ≠ p := by
        intro hh
        rw [hh, h] at hs
        simp at hs
      simp [hne, h]

theorem mkdirSteps_created {d : FPath} {idx : List Nat} {fs : FS} {i : Nat}
    (h : i ∈ idx) : (lookupFS (mkdirSteps d idx fs) (d.take (i+1))).isSome = true := by
  induction idx generalizing fs with
  | nil => simp at h
  | cons j t ih =>
    rcases List.mem_cons.mp h with h1 | h1
    · subst h1
      simp only [mkdirSteps]
      by_cases hs : (lookupFS fs (d.take (i+1))).isSome
      · simp only [if_pos hs]
        rcases Option.isSome_iff_exists.mp hs with ⟨e, he⟩
        rw [lookup_mkdirSteps_some he]
        rfl
      · simp only [if_neg hs]
        have : lookupFS (setEntry fs (d.take (i+1)) (Entry.dir 0 0)) (d.take (i+1))
            = some (Entry.dir 0 0) := by
          rw [lookup_setEntry]; simp
        rw [lookup_mkdirSteps_some this]
        rfl
    · simp only [mkdirSteps]
      by_cases hs : (lookupFS fs (d.take (j+1))).isSome
      · simp only [if_pos hs]; exact ih h1
      · simp only [if_neg hs]; exact ih h1

theorem mkdirParents_self {fs : FS} {d : FPath} (h : d ≠ []) :
    (lookupFS (mkdirParents fs d) d).isSome = true := by
  have hl : 0 < d.length := List.length_pos.mpr h
  have hmem : d.length - 1 ∈ List.range d.length := by
    simp [List.mem_range]
    omega
  have h2 : (lookupFS (mkdirSteps d (List.range d.length) fs)
      (d.take (d.length - 1 + 1))).isSome = true :=
    mkdirSteps_created hmem
  rwa [Nat.sub_add_cancel hl, List.take_length] at h2

theorem lookup_mkdirSteps_src {d : FPath} {idx : List Nat} {fs : FS}
    {p : FPath} {e : Entry} (h : lookupFS (mkdirSteps d idx fs) p = some e) :
    lookupFS fs p = some e ∨ (e = Entry.dir 0 0 ∧ ∃ i ∈ idx, p = d.take (i+1)) := by
  induction idx generalizing fs with
  | nil => left; simpa [mkdirSteps] using h
  | cons j t ih =>
    simp only [mkdirSteps] at h
    by_cases hs : (lookupFS fs (d.take (j+1))).isSome
    · simp only [if_pos hs] at h
      rcases ih h with h1 | ⟨h1, i, hi, hp⟩
      · left; exact h1
      · right; exact ⟨h1, i, List.mem_cons_of_mem _ hi, hp⟩
    · simp only [if_neg hs] at h
      rcases ih h with h1 | ⟨h1, i, hi, hp⟩
      · rw [lookup_setEntry] at h1
        by_cases hp : d.take (j+1) = p
        · simp only [if_pos hp] at h1
          right
          exact ⟨(Option.some_inj.mp h1).symm, j, List.mem_cons_self j t, hp.symm⟩
        · simp only [if_neg hp] at h1
          left; exact h1
      · right; exact ⟨h1, i, List.mem_cons_of_mem _ hi, hp⟩

theorem lookup_mkdirSteps_not {d : FPath} {idx : List Nat} {fs : FS} {p : FPath}
    (h : ∀ i ∈ idx, p ≠ d.take (i+1)) :
    lookupFS (mkdirSteps d idx fs) p = lookupFS fs p := by
  induction idx generalizing fs with
  | nil => simp [mkdirSteps]
  | cons j t ih =>
    simp only [mkdirSteps]
    by_cases hs : (lookupFS fs (d.take (j+1))).isSome
    · simp only [if_pos hs]
      exact ih (fun i hi => h i (List.mem_cons_of_mem _ hi))
    · simp only [if_neg hs]
      rw [ih (fun i hi => h i (List.mem_cons_of_mem _ hi))]
      rw [lookup_setEntry]
      have : d.take (j+1) ≠ p := fun hh => h j (List.mem_cons_self j t) hh.symm
      simp [this]

/- ------------------------------------------------------------------
The chunked digest equals the digest of the whole content.
------------------------------------------------------------------ -/

theorem chunksFuel_foldl {k : Nat} (hk : 0 < k) :
    ∀ (fuel : Nat) (l acc : List Nat), l.length ≤ fuel →
      (chunksFuel k fuel l).foldl hashlibUpdate acc = acc ++ l := by
  intro fuel
  induction fuel with
  | zero =>
    intro l acc hl
    have : l = [] := List.length_eq_zero.mp (Nat.le_zero.mp hl)
    simp [this, chunksFuel]
  | succ n ih =>
    intro l acc hl
    cases l with
    | nil => simp [chunksFuel]
    | cons a t =>
      have hk' : ¬ k = 0 := Nat.pos_iff_ne_zero.mp hk
      simp only [chunksFuel, if_neg hk', List.foldl_cons]
      rw [ih ((a :: t).drop k) (hashlibUpdate acc ((a :: t).take k)) ?_]
      · unfold hashlibUpdate
        rw [List.append_assoc, List.take_append_drop]
      · rw [List.length_drop]
        simp only [List.length_cons] at hl ⊢
        omega

theorem compute_hash_eq_md5hex (c : List Nat) : compute_hash c = md5hex c := by
  unfold compute_hash chunksOf
  rw [chunksFuel_foldl (by omega) c.length c [] (Nat.le_refl _)]
  rfl

/- ------------------------------------------------------------------
Lemmas about the copy pipeline.
------------------------------------------------------------------ -/

theorem copyFuel_fs_cases (flp : Nat → Bool) (S R rel : FPath) (c : List Nat)
    (m : Int) (rep : FS) (maxr : Nat) :
    ∀ fuel att, (copyFuel flp S R rel c m rep maxr att fuel).1 = rep ∨
      (copyFuel flp S R rel c m rep maxr att fuel).1 = setEntry rep rel (Entry.file c m) := by
  intro fuel
  induction fuel with
  | zero => intro att; left; rfl
  | succ n ih =>
    intro att
    simp only [copyFuel]
    by_cases h1 : flp att = false ∧ dirsOk rep rel = true
    · rw [if_pos h1]; right; rfl
    · rw [if_neg h1]
      by_cases h2 : att < maxr
      · rw [if_pos h2]; exact ih (att+1)
      · rw [if_neg h2]; left; rfl

theorem copy_file_fs_cases (flp : Nat → Bool) (S R rel : FPath) (c : List Nat)
    (m : Int) (rep : FS) (maxr att : Nat) :
    (copy_file flp S R rel c m rep maxr att).1 = rep ∨
      (copy_file flp S R rel c m rep maxr att).1 = setEntry rep rel (Entry.file c m) :=
  copyFuel_fs_cases flp S R rel c m rep maxr _ att

theorem copy_file_ok {flp : Nat → Bool} {S R rel : FPath} {c : List Nat}
    {m : Int} {rep : FS} {maxr att : Nat} (h : att ≤ maxr)
    (hff : failFree (copy_file flp S R rel c m rep maxr att).2 = true) :
    copy_file flp S R rel c m rep maxr att =
      (setEntry rep rel (Entry.file c m),
       [Op.hashed (S ++ rel), Op.hashed (R ++ rel), Op.copied (S ++ rel) (R ++ rel)]) := by
  unfold copy_file at hff ⊢
  have hfuel : maxr + 1 - att = (maxr - att) + 1 := by omega
  rw [hfuel] at hff ⊢
  simp only [copyFuel] at hff ⊢
  by_cases h1 : flp att = false ∧ dirsOk rep rel = true
  · rw [if_pos h1]
  · rw [if_neg h1] at hff
    by_cases h2 : att < maxr
    · rw [if_pos h2] at hff
      simp [failFree, isFailureOp] at hff
    · rw [if_neg h2] at hff
      simp [failFree, isFailureOp] at hff

theorem copy_attempt_pos (flp : Nat → Bool) (S R rel : FPath) (c : List Nat)
    (m : Int) (rep : FS) (maxr att : Nat) (h : att ≤ maxr) :
    1 ≤ attemptOps (copy_file flp S R rel c m rep maxr att).2 := by
  unfold copy_file
  have hfuel : maxr + 1 - att = (maxr - att) + 1 := by omega
  rw [hfuel]
  simp only [copyFuel]
  by_cases h1 : flp att = false ∧ dirsOk rep rel = true
  · rw [if_pos h1]
    simp [attemptOps, List.countP_cons, isAttemptOp]
  · rw [if_neg h1]
    by_cases h2 : att < maxr
    · rw [if_pos h2]
      simp [attemptOps, List.countP_cons, isAttemptOp]
    · rw [if_neg h2]
      simp [attemptOps, List.countP_cons, isAttemptOp]

theorem copyFuel_allfail {flp : Nat → Bool} (S R rel : FPath) (c : List Nat)
    (m : Int) (rep : FS) (maxr : Nat) (hall : ∀ n, flp n = true) :
    ∀ fuel att, att ≤ maxr → maxr + 1 - att = fuel →
      (copyFuel flp S R rel c m rep maxr att fuel).1 = rep ∧
      attemptOps (copyFuel flp S R rel c m rep maxr att fuel).2 = fuel ∧
      Op.copyGaveUp (S ++ rel) (R ++ rel) ∈ (copyFuel flp S R rel c m rep maxr att fuel).2 := by
  intro fuel
  induction fuel with
  | zero => intro att h1 h2; omega
  | succ n ih =>
    intro att h1 h2
    have hflp : ¬ (flp att = false ∧ dirsOk rep rel = true) := by
      intro hc
      rw [hall att] at hc
      exact absurd hc.1 (by simp)
    simp only [copyFuel, if_neg hflp]
    by_cases h2' : att < maxr
    · rw [if_pos h2']
      have := ih (att + 1) (by omega) (by omega)
      refine ⟨this.1, ?_, List.mem_cons_of_mem _ this.2.2⟩
      simp only [attemptOps, List.countP_cons] at this ⊢
      rw [this.2.1]
      simp [isAttemptOp]
    · rw [if_neg h2']
      have hn : n = 0 := by omega
      subst hn
      refine ⟨rfl, by simp [attemptOps, List.countP_cons, isAttemptOp], ?_⟩
      simp

theorem copy_file_allfail {flp : Nat → Bool} (S R rel : FPath) (c : List Nat)
    (m : Int) (rep : FS) (maxr : Nat) (hall : ∀ n, flp n = true) (hm : 1 ≤ maxr) :
    (copy_file flp S R rel c m rep maxr 1).1 = rep ∧
    attemptOps (copy_file flp S R rel c m rep maxr 1).2 = maxr ∧
    Op.copyGaveUp (S ++ rel) (R ++ rel) ∈ (copy_file flp S R rel c m rep maxr 1).2 := by
  have := copyFuel_allfail S R rel c m rep maxr hall (maxr + 1 - 1) 1 hm rfl
  have hx : maxr + 1 - 1 = maxr := by omega
  rw [hx] at this
  unfold copy_file
  rw [hx]
  exact this

theorem copyFuel_muts (flp : Nat → Bool) (S R rel : FPath) (c : List Nat)
    (m : Int) (rep : FS) (maxr : Nat) :
    ∀ fuel att o, o ∈ (copyFuel flp S R rel c m rep maxr att fuel).2 →
      ∀ t, mutTarget o = some t → t = R ++ rel := by
  intro fuel
  induction fuel with
  | zero => intro att o ho; simp [copyFuel] at ho
  | succ n ih =>
    intro att o ho t ht
    simp only [copyFuel] at ho
    by_cases h1 : flp att = false ∧ dirsOk rep rel = true
    · rw [if_pos h1] at ho
      simp at ho
      rcases ho with h | h | h <;> subst h <;> simp [mutTarget] at ht <;> try exact ht.symm
    · rw [if_neg h1] at ho
      by_cases h2 : att < maxr
      · rw [if_pos h2] at ho
        rcases List.mem_cons.mp ho with h | h
        · subst h; simp [mutTarget] at ht; exact ht.symm
        · exact ih (att+1) o h t ht
      · rw [if_neg h2] at ho
        simp at ho
        rcases ho with h | h <;> subst h <;> simp [mutTarget] at ht
        exact ht.symm

theorem copyFuel_del_none (flp : Nat → Bool) (S R rel : FPath) (c : List Nat)
    (m : Int) (rep : FS) (maxr : Nat) :
    ∀ fuel att o, o ∈ (copyFuel flp S R rel c m rep maxr att fuel).2 →
      deleteTarget o = none := by
  intro fuel
  induction fuel with
  | zero => intro att o ho; simp [copyFuel] at ho
  | succ n ih =>
    intro att o ho
    simp only [copyFuel] at ho
    by_cases h1 : flp att = false ∧ dirsOk rep rel = true
    · rw [if_pos h1] at ho
      simp at ho
      rcases ho with h | h | h <;> subst h <;> rfl
    · rw [if_neg h1] at ho
      by_cases h2 : att < maxr
      · rw [if_pos h2] at ho
        rcases List.mem_cons.mp ho with h | h
        · subst h; rfl
        · exact ih (att+1) o h
      · rw [if_neg h2] at ho
        simp at ho
        rcases ho with h | h <;> subst h <;> rfl

/- ------------------------------------------------------------------
Lemmas about the change detector.
------------------------------------------------------------------ -/

theorem cf_fs_cases {flp : Nat → Bool} {S R rel : FPath} {c : List Nat}
    {m : Int} {rep fs' : FS} {ops : List Op}
    (h : compare_files flp S R rel c m rep = Except.ok (fs', ops)) :
    fs' = rep ∨ fs' = setEntry rep rel (Entry.file c m) := by
  unfold compare_files at h
  cases hl : lookupFS rep rel with
  | none =>
    rw [hl] at h
    simp only [compare_core, Except.ok.injEq, Prod.mk.injEq] at h
    rcases copy_file_fs_cases flp S R rel c m rep 3 1 with hc | hc
    · left; rw [← h.1, hc]
    · right; rw [← h.1, hc]
  | some de =>
    rw [hl] at h
    cases de with
    | file dc dm =>
      simp only [compare_core] at h
      by_cases hmeta : m = dm ∧ c.length = dc.length
      · rw [if_pos hmeta] at h
        simp only [Except.ok.injEq, Prod.mk.injEq] at h
        left; exact h.1.symm
      · rw [if_neg hmeta] at h
        by_cases hh : compute_hash c = compute_hash dc
        · simp only [if_pos hh, Except.ok.injEq, Prod.mk.injEq] at h
          left; exact h.1.symm
        · simp only [if_neg hh, Except.ok.injEq, Prod.mk.injEq] at h
          rcases copy_file_fs_cases flp S R rel c m rep 3 1 with hc | hc
          · left; rw [← h.1, hc]
          · right; rw [← h.1, hc]
    | dir dm ds =>
      simp only [compare_core] at h
      by_cases hmeta : m = dm ∧ c.length = ds
      · rw [if_pos hmeta] at h
        simp only [Except.ok.injEq, Prod.mk.injEq] at h
        left; exact h.1.symm
      · rw [if_neg hmeta] at h
        simp at h

theorem cf_pers {flp : Nat → Bool} {S R rel : FPath} {c : List Nat}
    {m : Int} {rep fs' : FS} {ops : List Op}
    (h : compare_files flp S R rel c m rep = Except.ok (fs', ops))
    (q : FPath) (hq : q ≠ rel) : lookupFS fs' q = lookupFS rep q := by
  rcases cf_fs_cases h with h1 | h1 <;> subst h1
  · rfl
  · rw [lookup_setEntry]
    rw [if_neg (fun hh : rel = q => hq hh.symm)]

theorem cf_isSome_pers {flp : Nat → Bool} {S R rel : FPath} {c : List Nat}
    {m : Int} {rep fs' : FS} {ops : List Op}
    (h : compare_files flp S R rel c m rep = Except.ok (fs', ops))
    (q : FPath) (hs : (lookupFS rep q).isSome = true) :
    (lookupFS fs' q).isSome = true := by
  rcases cf_fs_cases h with h1 | h1 <;> subst h1
  · exact hs
  · rw [lookup_setEntry]
    by_cases hq : rel = q
    · simp [hq]
    · simp [hq, hs]

theorem cf_ok_upToDate {flp : Nat → Bool} {S R rel : FPath} {c : List Nat}
    {m : Int} {rep fs' : FS} {ops : List Op}
    (h : compare_files flp S R rel c m rep = Except.ok (fs', ops))
    (hff : failFree ops = true) :
    ∃ e, lookupFS fs' rel = some e ∧ upToDate c m e := by
  unfold compare_files at h
  cases hl : lookupFS rep rel with
  | none =>
    rw [hl] at h
    simp only [compare_core, Except.ok.injEq, Prod.mk.injEq] at h
    have hco : failFree (copy_file flp S R rel c m rep 3 1).2 = true := by
      rw [h.2]; exact hff
    have := copy_file_ok (by omega) hco
    refine ⟨Entry.file c m, ?_, Or.inr ⟨c, m, rfl, rfl⟩⟩
    rw [← h.1, this]
    simp [lookup_setEntry]
  | some de =>
    rw [hl] at h
    cases de with
    | file dc dm =>
      simp only [compare_core] at h
      by_cases hmeta : m = dm ∧ c.length = dc.length
      · rw [if_pos hmeta] at h
        simp only [Except.ok.injEq, Prod.mk.injEq] at h
        refine ⟨Entry.file dc dm, ?_, Or.inl ⟨hmeta.1.symm, hmeta.2.symm⟩⟩
        rw [← h.1]; exact hl
      · rw [if_neg hmeta] at h
        by_cases hh : compute_hash c = compute_hash dc
        · simp only [if_pos hh, Except.ok.injEq, Prod.mk.injEq] at h
          refine ⟨Entry.file dc dm, ?_, Or.inr ⟨dc, dm, rfl, hh.symm⟩⟩
          rw [← h.1]; exact hl
        · simp only [if_neg hh, Except.ok.injEq, Prod.mk.injEq] at h
          have hco : failFree (copy_file flp S R rel c m rep 3 1).2 = true := by
            rw [← h.2] at hff
            simp only [failFree, List.all_cons, Bool.and_eq_true] at hff
            exact hff.2.2
          have := copy_file_ok (by omega) hco
          refine ⟨Entry.file c m, ?_, Or.inr ⟨c, m, rfl, rfl⟩⟩
          rw [← h.1, this]
          simp [lookup_setEntry]
    | dir dm ds =>
      simp only [compare_core] at h
      by_cases hmeta : m = dm ∧ c.length = ds
      · rw [if_pos hmeta] at h
        simp only [Except.ok.injEq, Prod.mk.injEq] at h
        refine ⟨Entry.dir dm ds, ?_, Or.inl ⟨hmeta.1.symm, hmeta.2.symm⟩⟩
        rw [← h.1]; exact hl
      · rw [if_neg hmeta] at h
        simp at h

theorem cf_upToDate {flp : Nat → Bool} {S R rel : FPath} {c : List Nat}
    {m : Int} {rep : FS} {e : Entry}
    (hl : lookupFS rep rel = some e) (hu : upToDate c m e) :
    ∃ ops, compare_files flp S R rel c m rep = Except.ok (rep, ops) ∧
      attemptOps ops = 0 := by
  unfold compare_files
  rw [hl]
  cases e with
  | file dc dm =>
    simp only [compare_core]
    by_cases hmeta : m = dm ∧ c.length = dc.length
    · rw [if_pos hmeta]
      exact ⟨_, rfl, by simp [attemptOps, List.countP_cons, isAttemptOp]⟩
    · rw [if_neg hmeta]
      have hh : compute_hash c = compute_hash dc := by
        rcases hu with ⟨h1, h2⟩ | ⟨dc', dm', he, hh⟩
        · exact absurd ⟨h1.symm, h2.symm⟩ hmeta
        · injection he with e1 e2
          subst e1
          exact hh.symm
      rw [if_pos hh]
      exact ⟨_, rfl, by simp [attemptOps, List.countP_cons, isAttemptOp]⟩
  | dir dm ds =>
    simp only [compare_core]
    by_cases hmeta : m = dm ∧ c.length = ds
    · rw [if_pos hmeta]
      exact ⟨_, rfl, by simp [attemptOps, List.countP_cons, isAttemptOp]⟩
    · exfalso
      rcases hu with ⟨h1, h2⟩ | ⟨dc', dm', he, hh⟩
      · exact hmeta ⟨h1.symm, h2.symm⟩
      · cases he

theorem cf_missing {flp : Nat → Bool} {S R rel : FPath} {c : List Nat}
    {m : Int} {rep : FS} (hl : lookupFS rep rel = none) :
    ∃ r, compare_files flp S R rel c m rep = Except.ok r ∧ 1 ≤ attemptOps r.2 := by
  unfold compare_files
  rw [hl]
  simp only [compare_core]
  exact ⟨_, rfl, copy_attempt_pos flp S R rel c m rep 3 1 (by omega)⟩

theorem cf_missing_ok {flp : Nat → Bool} {S R rel : FPath} {c : List Nat}
    {m : Int} {rep fs' : FS} {ops : List Op}
    (hl : lookupFS rep rel = none)
    (h : compare_files flp S R rel c m rep = Except.ok (fs', ops))
    (hff : failFree ops = true) :
    fs' = setEntry rep rel (Entry.file c m) := by
  unfold compare_files at h
  rw [hl] at h
  simp only [compare_core, Except.ok.injEq, Prod.mk.injEq] at h
  have hco : failFree (copy_file flp S R rel c m rep 3 1).2 = true := by
    rw [h.2]; exact hff
  rw [← h.1, copy_file_ok (by omega) hco]

theorem cf_muts {flp : Nat → Bool} {S R rel : FPath} {c : List Nat}
    {m : Int} {rep fs' : FS} {ops : List Op}
    (h : compare_files flp S R rel c m rep = Except.ok (fs', ops)) :
    ∀ o ∈ ops, ∀ t, mutTarget o = some t → t = R ++ rel := by
  unfold compare_files at h
  cases hl : lookupFS rep rel with
  | none =>
    rw [hl] at h
    simp only [compare_core, Except.ok.injEq, Prod.mk.injEq] at h
    intro o ho t ht
    rw [← h.2] at ho
    exact copyFuel_muts flp S R rel c m rep 3 _ 1 o ho t ht
  | some de =>
    rw [hl] at h
    cases de with
    | file dc dm =>
      simp only [compare_core] at h
      by_cases hmeta : m = dm ∧ c.length = dc.length
      · rw [if_pos hmeta] at h
        simp only [Except.ok.injEq, Prod.mk.injEq] at h
        intro o ho t ht
        rw [← h.2] at ho
        simp at ho
        subst ho
        simp [mutTarget] at ht
      · rw [if_neg hmeta] at h
        by_cases hh : compute_hash c = compute_hash dc
        · simp only [if_pos hh, Except.ok.injEq, Prod.mk.injEq] at h
          intro o ho t ht
          rw [← h.2] at ho
          simp at ho
          rcases ho with h1 | h1 | h1 <;> subst h1 <;> simp [mutTarget] at ht
        · simp only [if_neg hh, Except.ok.injEq, Prod.mk.injEq] at h
          intro o ho t ht
          rw [← h.2] at ho
          rcases List.mem_cons.mp ho with h1 | h1
          · subst h1; simp [mutTarget] at ht
          rcases List.mem_cons.mp h1 with h2 | h2
          · subst h2; simp [mutTarget] at ht
          · exact copyFuel_muts flp S R rel c m rep 3 _ 1 o h2 t ht
    | dir dm ds =>
      simp only [compare_core] at h
      by_cases hmeta : m = dm ∧ c.length = ds
      · rw [if_pos hmeta] at h
        simp only [Except.ok.injEq, Prod.mk.injEq] at h
        intro o ho t ht
        rw [← h.2] at ho
        simp at ho
        subst ho
        simp [mutTarget] at ht
      · rw [if_neg hmeta] at h
        simp at h

theorem cf_del_none {flp : Nat → Bool} {S R rel : FPath} {c : List Nat}
    {m : Int} {rep fs' : FS} {ops : List Op}
    (h : compare_files flp S R rel c m rep = Except.ok (fs', ops)) :
    ∀ o ∈ ops, deleteTarget o = none := by
  unfold compare_files at h
  cases hl : lookupFS rep rel with
  | none =>
    rw [hl] at h
    simp only [compare_core, Except.ok.injEq, Prod.mk.injEq] at h
    intro o ho
    rw [← h.2] at ho
    exact copyFuel_del_none flp S R rel c m rep 3 _ 1 o ho
  | some de =>
    rw [hl] at h
    cases de with
    | file dc dm =>
      simp only [compare_core] at h
      by_cases hmeta : m = dm ∧ c.length = dc.length
      · rw [if_pos hmeta] at h
        simp only [Except.ok.injEq, Prod.mk.injEq] at h
        intro o ho
        rw [← h.2] at ho
        simp at ho
        subst ho
        rfl
      · rw [if_neg hmeta] at h
        by_cases hh : compute_hash c = compute_hash dc
        · simp only [if_pos hh, Except.ok.injEq, Prod.mk.injEq] at h
          intro o ho
          rw [← h.2] at ho
          simp at ho
          rcases ho with h1 | h1 | h1 <;> subst h1 <;> rfl
        · simp only [if_neg hh, Except.ok.injEq, Prod.mk.injEq] at h
          intro o ho
          rw [← h.2] at ho
          rcases List.mem_cons.mp ho with h1 | h1
          · subst h1; rfl
          rcases List.mem_cons.mp h1 with h2 | h2
          · subst h2; rfl
          · exact copyFuel_del_none flp S R rel c m rep 3 _ 1 o h2
    | dir dm ds =>
      simp only [compare_core] at h
      by_cases hmeta : m = dm ∧ c.length = ds
      · rw [if_pos hmeta] at h
        simp only [Except.ok.injEq, Prod.mk.injEq] at h
        intro o ho
        rw [← h.2] at ho
        simp at ho
        subst ho
        rfl
      · rw [if_neg hmeta] at h
        simp at h

/- ------------------------------------------------------------------
Lemmas about one source-phase step.
------------------------------------------------------------------ -/

theorem srcStep_dir_inv {flp : Nat → Bool} {S R p : FPath} {dm : Int} {ds : Nat}
    {rep rep1 : FS} {ops1 : List Op}
    (h : srcStep flp S R p (Entry.dir dm ds) rep = Except.ok (rep1, ops1)) :
    (rep1 = rep ∧ (lookupFS rep p).isSome = true ∧ ops1 = []) ∨
    (rep1 = mkdirParents rep p ∧ lookupFS rep p = none ∧ ops1 = [Op.mkdirOp (R ++ p)]) := by
  simp only [srcStep] at h
  by_cases h1 : (lookupFS rep p).isSome
  · rw [if_pos h1] at h
    simp only [Except.ok.injEq, Prod.mk.injEq] at h
    exact Or.inl ⟨h.1.symm, h1, h.2.symm⟩
  · rw [if_neg h1] at h
    by_cases h2 : prefsCompat rep p
    · rw [if_pos h2] at h
      simp only [Except.ok.injEq, Prod.mk.injEq] at h
      exact Or.inr ⟨h.1.symm, Option.not_isSome_iff_eq_none.mp h1, h.2.symm⟩
    · rw [if_neg h2] at h
      simp at h

theorem srcStep_isSome_pers {flp : Nat → Bool} {S R p : FPath} {e : Entry}
    {rep rep1 : FS} {ops1 : List Op}
    (h : srcStep flp S R p e rep = Except.ok (rep1, ops1)) (q : FPath)
    (hq : (lookupFS rep q).isSome = true) : (lookupFS rep1 q).isSome = true := by
  cases e with
  | file c m =>
    simp only [srcStep] at h
    exact cf_isSome_pers h q hq
  | dir dm ds =>
    rcases srcStep_dir_inv h with ⟨h1, _, _⟩ | ⟨h1, _, _⟩ <;> subst h1
    · exact hq
    · rcases Option.isSome_iff_exists.mp hq with ⟨e', he'⟩
      unfold mkdirParents
      rw [lookup_mkdirSteps_some he']
      rfl

theorem srcStep_exact_pers {flp : Nat → Bool} {S R p : FPath} {e : Entry}
    {rep rep1 : FS} {ops1 : List Op} {q : FPath} {e' : Entry}
    (h : srcStep flp S R p e rep = Except.ok (rep1, ops1))
    (hq : lookupFS rep q = some e') (hne : q ≠ p) :
    lookupFS rep1 q = some e' := by
  cases e with
  | file c m =>
    simp only [srcStep] at h
    rw [cf_pers h q hne]
    exact hq
  | dir dm ds =>
    rcases srcStep_dir_inv h with ⟨h1, _, _⟩ | ⟨h1, _, _⟩ <;> subst h1
    · exact hq
    · unfold mkdirParents
      exact lookup_mkdirSteps_some hq

theorem srcStep_none_pers {flp : Nat → Bool} {S R p : FPath} {e : Entry}
    {rep rep1 : FS} {ops1 : List Op} {q : FPath}
    (h : srcStep flp S R p e rep = Except.ok (rep1, ops1))
    (hq : lookupFS rep q = none) (hne : q ≠ p)
    (hnp : ∀ i, i < p.length → q ≠ p.take (i+1)) :
    lookupFS rep1 q = none := by
  cases e with
  | file c m =>
    simp only [srcStep] at h
    rw [cf_pers h q hne]
    exact hq
  | dir dm ds =>
    rcases srcStep_dir_inv h with ⟨h1, _, _⟩ | ⟨h1, _, _⟩ <;> subst h1
    · exact hq
    · unfold mkdirParents
      rw [lookup_mkdirSteps_not ?_]
      · exact hq
      · intro i hi
        exact hnp i (List.mem_range.mp hi)

/- ------------------------------------------------------------------
Inductions over the source phase.
------------------------------------------------------------------ -/

theorem ss_isSome_pers {σE : FPath → Option Err} {fl : FPath → Nat → Bool}
    {S R : FPath} :
    ∀ {L : List (FPath × Entry)} {rep rep' : FS} {ops : List Op},
      sync_source_go σE fl S R L rep = Except.ok (rep', ops) →
      ∀ q, (lookupFS rep q).isSome = true → (lookupFS rep' q).isSome = true := by
  intro L
  induction L with
  | nil =>
    intro rep rep' ops h q hq
    simp only [sync_source_go, Except.ok.injEq, Prod.mk.injEq] at h
    rw [← h.1]
    exact hq
  | cons hd rest ih =>
    obtain ⟨p, e⟩ := hd
    intro rep rep' ops h q hq
    simp only [sync_source_go] at h
    split at h
    · exact absurd h (by simp)
    · simp only [Except.ok.injEq, Prod.mk.injEq] at h
      rw [← h.1]
      exact hq
    · split at h
      · exact absurd h (by simp)
      · simp only [Except.ok.injEq, Prod.mk.injEq] at h
        rw [← h.1]
        exact hq
      · rename_i rep1 ops1 hstep
        split at h
        · exact absurd h (by simp)
        · rename_i rep2 ops2 hrest
          simp only [Except.ok.injEq, Prod.mk.injEq] at h
          rw [← h.1]
          exact ih hrest q (srcStep_isSome_pers hstep q hq)

theorem ss_exact_pers {σE : FPath → Option Err} {fl : FPath → Nat → Bool}
    {S R : FPath} :
    ∀ {L : List (FPath × Entry)} {rep rep' : FS} {ops : List Op},
      sync_source_go σE fl S R L rep = Except.ok (rep', ops) →
      ∀ q e', lookupFS rep q = some e' → (∀ c m, (q, Entry.file c m) ∉ L) →
      lookupFS rep' q = some e' := by
  intro L
  induction L with
  | nil =>
    intro rep rep' ops h q e' hq _
    simp only [sync_source_go, Except.ok.injEq, Prod.mk.injEq] at h
    rw [← h.1]
    exact hq
  | cons hd rest ih =>
    obtain ⟨p, e⟩ := hd
    intro rep rep' ops h q e' hq hqL
    simp only [sync_source_go] at h
    split at h
    · exact absurd h (by simp)
    · simp only [Except.ok.injEq, Prod.mk.injEq] at h
      rw [← h.1]
      exact hq
    · split at h
      · exact absurd h (by simp)
      · simp only [Except.ok.injEq, Prod.mk.injEq] at h
        rw [← h.1]
        exact hq
      · rename_i rep1 ops1 hstep
        split at h
        · exact absurd h (by simp)
        · rename_i rep2 ops2 hrest
          simp only [Except.ok.injEq, Prod.mk.injEq] at h
          rw [← h.1]
          have hq1 : lookupFS rep1 q = some e' := by
            cases e with
            | file c m =>
              have hqp : q ≠ p := by
                intro hh
                exact hqL c m (hh ▸ List.mem_cons_self _ _)
              exact srcStep_exact_pers hstep hq hqp
            | dir dm ds =>
              rcases srcStep_dir_inv hstep with ⟨h1, _, _⟩ | ⟨h1, _, _⟩ <;> subst h1
              · exact hq
              · unfold mkdirParents
                exact lookup_mkdirSteps_some hq
          exact ih hrest q e' hq1
            (fun c m hm => hqL c m (List.mem_cons_of_mem _ hm))

theorem ss_files_upToDate {σE : FPath → Option Err} {fl : FPath → Nat → Bool}
    {S R : FPath} :
    ∀ {L : List (FPath × Entry)} {rep rep' : FS} {ops : List Op},
      sync_source_go σE fl S R L rep = Except.ok (rep', ops) →
      failFree ops = true → (L.map Prod.fst).Nodup →
      ∀ p c m, (p, Entry.file c m) ∈ L →
        ∃ e, lookupFS rep' p = some e ∧ upToDate c m e := by
  intro L
  induction L with
  | nil =>
    intro rep rep' ops h _ _ p c m hmem
    simp at hmem
  | cons hd rest ih =>
    obtain ⟨p0, e0⟩ := hd
    intro rep rep' ops h hff hnd p c m hmem
    simp only [List.map_cons, List.nodup_cons] at hnd
    simp only [sync_source_go] at h
    split at h
    · exact absurd h (by simp)
    · simp only [Except.ok.injEq, Prod.mk.injEq] at h
      rw [← h.2] at hff
      simp [failFree, isFailureOp] at hff
    · split at h
      · exact absurd h (by simp)
      · simp only [Except.ok.injEq, Prod.mk.injEq] at h
        rw [← h.2] at hff
        simp [failFree, isFailureOp] at hff
      · rename_i rep1 ops1 hstep
        split at h
        · exact absurd h (by simp)
        · rename_i rep2 ops2 hrest
          simp only [Except.ok.injEq, Prod.mk.injEq] at h
          rw [← h.2] at hff
          simp only [failFree, List.all_append, Bool.and_eq_true] at hff
          rw [← h.1]
          rcases List.mem_cons.mp hmem with h1 | h1
          · injection h1 with hp0 he0
            subst hp0
            subst he0
            simp only [srcStep] at hstep
            obtain ⟨e1, he1, hu1⟩ := cf_ok_upToDate hstep hff.1
            refine ⟨e1, ?_, hu1⟩
            apply ss_exact_pers hrest p e1 he1
            intro c' m' hm
            exact hnd.1 (List.mem_map.mpr ⟨(p, Entry.file c' m'), hm, rfl⟩)
          · exact ih hrest hff.2 hnd.2 p c m h1

theorem ss_dirs_present {σE : FPath → Option Err} {fl : FPath → Nat → Bool}
    {S R : FPath} :
    ∀ {L : List (FPath × Entry)} {rep rep' : FS} {ops : List Op},
      sync_source_go σE fl S R L rep = Except.ok (rep', ops) →
      failFree ops = true → (∀ x ∈ L, x.1 ≠ []) →
      ∀ p dm ds, (p, Entry.dir dm ds) ∈ L →
        (lookupFS rep' p).isSome = true := by
  intro L
  induction L with
  | nil =>
    intro rep rep' ops h _ _ p dm ds hmem
    simp at hmem
  | cons hd rest ih =>
    obtain ⟨p0, e0⟩ := hd
    intro rep rep' ops h hff hne p dm ds hmem
    simp only [sync_source_go] at h
    split at h
    · exact absurd h (by simp)
    · simp only [Except.ok.injEq, Prod.mk.injEq] at h
      rw [← h.2] at hff
      simp [failFree, isFailureOp] at hff
    · split at h
      · exact absurd h (by simp)
      · simp only [Except.ok.injEq, Prod.mk.injEq] at h
        rw [← h.2] at hff
        simp [failFree, isFailureOp] at hff
      · rename_i rep1 ops1 hstep
        split at h
        · exact absurd h (by simp)
        · rename_i rep2 ops2 hrest
          simp only [Except.ok.injEq, Prod.mk.injEq] at h
          rw [← h.2] at hff
          simp only [failFree, List.all_append, Bool.and_eq_true] at hff
          rw [← h.1]
          rcases List.mem_cons.mp hmem with h1 | h1
          · injection h1 with hp0 he0
            subst hp0
            subst he0
            have hs1 : (lookupFS rep1 p).isSome = true := by
              rcases srcStep_dir_inv hstep with ⟨h1', h2', _⟩ | ⟨h1', h2', _⟩ <;> subst h1'
              · exact h2'
              · exact mkdirParents_self (hne _ (List.mem_cons_self _ _))
            exact ss_isSome_pers hrest p hs1
          · exact ih hrest hff.2 (fun x hx => hne x (List.mem_cons_of_mem _ hx)) p dm ds h1

theorem ss_missing_copied {σE : FPath → Option Err} {fl : FPath → Nat → Bool}
    {S R : FPath} {src : FS} (hWF : WFt src) :
    ∀ {L : List (FPath × Entry)} {rep rep' : FS} {ops : List Op},
      sync_source_go σE fl S R L rep = Except.ok (rep', ops) →
      failFree ops = true →
      (∀ x ∈ L, x ∈ src) → (L.map Prod.fst).Nodup →
      ∀ p c m, (p, Entry.file c m) ∈ L → lookupFS rep p = none →
        lookupFS rep' p = some (Entry.file c m) := by
  intro L
  induction L with
  | nil =>
    intro rep rep' ops h _ _ _ p c m hmem
    simp at hmem
  | cons hd rest ih =>
    obtain ⟨p0, e0⟩ := hd
    intro rep rep' ops h hff hsub hnd p c m hmem hnone
    simp only [List.map_cons, List.nodup_cons] at hnd
    simp only [sync_source_go] at h
    split at h
    · exact absurd h (by simp)
    · simp only [Except.ok.injEq, Prod.mk.injEq] at h
      rw [← h.2] at hff
      simp [failFree, isFailureOp] at hff
    · split at h
      · exact absurd h (by simp)
      · simp only [Except.ok.injEq, Prod.mk.injEq] at h
        rw [← h.2] at hff
        simp [failFree, isFailureOp] at hff
      · rename_i rep1 ops1 hstep
        split at h
        · exact absurd h (by simp)
        · rename_i rep2 ops2 hrest
          simp only [Except.ok.injEq, Prod.mk.injEq] at h
          rw [← h.2] at hff
          simp only [failFree, List.all_append, Bool.and_eq_true] at hff
          rw [← h.1]
          rcases List.mem_cons.mp hmem with h1 | h1
          · injection h1 with hp0 he0
            subst hp0
            subst he0
            simp only [srcStep] at hstep
            have h1' : rep1 = setEntry rep p (Entry.file c m) :=
              cf_missing_ok hnone hstep hff.1
            have hl1 : lookupFS rep1 p = some (Entry.file c m) := by
              rw [h1', lookup_setEntry]
              simp
            apply ss_exact_pers hrest p _ hl1
            intro c' m' hm
            exact hnd.1 (List.mem_map.mpr ⟨(p, Entry.file c' m'), hm, rfl⟩)
          · have hmemsrc : (p, Entry.file c m) ∈ src :=
              hsub _ (List.mem_cons_of_mem _ h1)
            have hlsrc : lookupFS src p = some (Entry.file c m) :=
              lookup_eq_of_mem_nodup hWF.1 hmemsrc
            have hnep0 : p ≠ p0 := by
              intro hh
              subst hh
              exact hnd.1 (List.mem_map.mpr ⟨(p, Entry.file c m), h1, rfl⟩)
            have hnp : ∀ i, i < p0.length → p ≠ p0.take (i+1) := by
              intro i hi hh
              by_cases hilen : i + 1 = p0.length
              · rw [hilen, List.take_length] at hh
                exact hnep0 hh
              · have hi1 : i + 1 < p0.length := by omega
                have hx := (hWF.2 (p0, e0) (hsub _ (List.mem_cons_self _ _))).2
                have hda := hx (i+1) hi1 (by omega)
                unfold dirAt at hda
                rw [← hh, hlsrc] at hda
                simp [isDirE] at hda
            have hnone1 : lookupFS rep1 p = none :=
              srcStep_none_pers hstep hnone hnep0 hnp
            exact ih hrest hff.2 (fun x hx => hsub _ (List.mem_cons_of_mem _ hx))
              hnd.2 p c m h1 hnone1

theorem ss_del_none {σE : FPath → Option Err} {fl : FPath → Nat → Bool}
    {S R : FPath} :
    ∀ {L : List (FPath × Entry)} {rep rep' : FS} {ops : List Op},
      sync_source_go σE fl S R L rep = Except.ok (rep', ops) →
      ∀ o ∈ ops, deleteTarget o = none := by
  intro L
  induction L with
  | nil =>
    intro rep rep' ops h o ho
    simp only [sync_source_go, Except.ok.injEq, Prod.mk.injEq] at h
    rw [← h.2] at ho
    simp at ho
  | cons hd rest ih =>
    obtain ⟨p, e⟩ := hd
    intro rep rep' ops h o ho
    simp only [sync_source_go] at h
    split at h
    · exact absurd h (by simp)
    · simp only [Except.ok.injEq, Prod.mk.injEq] at h
      rw [← h.2] at ho
      simp at ho
      subst ho
      rfl
    · split at h
      · exact absurd h (by simp)
      · simp only [Except.ok.injEq, Prod.mk.injEq] at h
        rw [← h.2] at ho
        simp at ho
        subst ho
        rfl
      · rename_i rep1 ops1 hstep
        split at h
        · exact absurd h (by simp)
        · rename_i rep2 ops2 hrest
          simp only [Except.ok.injEq, Prod.mk.injEq] at h
          rw [← h.2] at ho
          rcases List.mem_append.mp ho with h1 | h1
          · cases e with
            | file c m =>
              simp only [srcStep] at hstep
              exact cf_del_none hstep o h1
            | dir dm ds =>
              rcases srcStep_dir_inv hstep with ⟨_, _, h3⟩ | ⟨_, _, h3⟩ <;> subst h3
              · simp at h1
              · simp at h1
                subst h1
                rfl
          · exact ih hrest o h1

theorem ss_muts {σE : FPath → Option Err} {fl : FPath → Nat → Bool}
    {S R : FPath} :
    ∀ {L : List (FPath × Entry)} {rep rep' : FS} {ops : List Op},
      sync_source_go σE fl S R L rep = Except.ok (rep', ops) →
      ∀ o ∈ ops, ∀ t, mutTarget o = some t → ∃ q, t = R ++ q := by
  intro L
  induction L with
  | nil =>
    intro rep rep' ops h o ho
    simp only [sync_source_go, Except.ok.injEq, Prod.mk.injEq] at h
    rw [← h.2] at ho
    simp at ho
  | cons hd rest ih =>
    obtain ⟨p, e⟩ := hd
    intro rep rep' ops h o ho t ht
    simp only [sync_source_go] at h
    split at h
    · exact absurd h (by simp)
    · simp only [Except.ok.injEq, Prod.mk.injEq] at h
      rw [← h.2] at ho
      simp at ho
      subst ho
      simp [mutTarget] at ht
    · split at h
      · exact absurd h (by simp)
      · simp only [Except.ok.injEq, Prod.mk.injEq] at h
        rw [← h.2] at ho
        simp at ho
        subst ho
        simp [mutTarget] at ht
      · rename_i rep1 ops1 hstep
        split at h
        · exact absurd h (by simp)
        · rename_i rep2 ops2 hrest
          simp only [Except.ok.injEq, Prod.mk.injEq] at h
          rw [← h.2] at ho
          rcases List.mem_append.mp ho with h1 | h1
          · cases e with
            | file c m =>
              simp only [srcStep] at hstep
              exact ⟨p, cf_muts hstep o h1 t ht⟩
            | dir dm ds =>
              rcases srcStep_dir_inv hstep with ⟨_, _, h3⟩ | ⟨_, _, h3⟩ <;> subst h3
              · simp at h1
              · simp at h1
                subst h1
                simp [mutTarget] at ht
                exact ⟨p, ht.symm⟩
          · exact ih hrest o h1 t ht

/- ------------------------------------------------------------------
Membership helpers and further source-phase lemmas.
------------------------------------------------------------------ -/

theorem mem_setEntry {fs : FS} {q : FPath} {e : Entry} {x : FPath × Entry}
    (h : x ∈ setEntry fs q e) : x = (q, e) ∨ x ∈ fs := by
  unfold setEntry at h
  rcases List.mem_cons.mp h with h1 | h1
  · left; exact h1
  · right; exact List.mem_of_mem_filter h1

theorem mem_mkdirSteps {d : FPath} {idx : List Nat} {fs : FS} {x : FPath × Entry}
    (h : x ∈ mkdirSteps d idx fs) : x ∈ fs ∨ ∃ i ∈ idx, x.1 = d.take (i+1) := by
  induction idx generalizing fs with
  | nil => left; simpa [mkdirSteps] using h
  | cons j t ih =>
    simp only [mkdirSteps] at h
    by_cases hs : (lookupFS fs (d.take (j+1))).isSome
    · rw [if_pos hs] at h
      rcases ih h with h1 | ⟨i, hi, hp⟩
      · left; exact h1
      · right; exact ⟨i, List.mem_cons_of_mem _ hi, hp⟩
    · rw [if_neg hs] at h
      rcases ih h with h1 | ⟨i, hi, hp⟩
      · rcases mem_setEntry h1 with h2 | h2
        · right
          refine ⟨j, List.mem_cons_self _ _, ?_⟩
          rw [h2]
        · left; exact h2
      · right; exact ⟨i, List.mem_cons_of_mem _ hi, hp⟩

theorem take_ne_nil {p : FPath} (hp : p ≠ []) (i : Nat) : p.take (i+1) ≠ [] := by
  cases p with
  | nil => exact absurd rfl hp
  | cons a t => simp [List.take]

theorem entry_eq_of_nodup {fs : FS} {p : FPath} {a b : Entry}
    (hn : (fs.map Prod.fst).Nodup) (ha : (p, a) ∈ fs) (hb : (p, b) ∈ fs) :
    a = b := by
  have h1 := lookup_eq_of_mem_nodup hn ha
  have h2 := lookup_eq_of_mem_nodup hn hb
  rw [h1] at h2
  exact Option.some_inj.mp h2

theorem ss_ne_paths {σE : FPath → Option Err} {fl : FPath → Nat → Bool}
    {S R : FPath} :
    ∀ {L : List (FPath × Entry)} {rep rep' : FS} {ops : List Op},
      sync_source_go σE fl S R L rep = Except.ok (rep', ops) →
      (∀ x ∈ L, x.1 ≠ []) → (∀ x ∈ rep, x.1 ≠ []) →
      ∀ x ∈ rep', x.1 ≠ [] := by
  intro L
  induction L with
  | nil =>
    intro rep rep' ops h _ hrep x hx
    simp only [sync_source_go, Except.ok.injEq, Prod.mk.injEq] at h
    rw [← h.1] at hx
    exact hrep x hx
  | cons hd rest ih =>
    obtain ⟨p, e⟩ := hd
    intro rep rep' ops h hneL hrep x hx
    simp only [sync_source_go] at h
    split at h
    · exact absurd h (by simp)
    · simp only [Except.ok.injEq, Prod.mk.injEq] at h
      rw [← h.1] at hx
      exact hrep x hx
    · split at h
      · exact absurd h (by simp)
      · simp only [Except.ok.injEq, Prod.mk.injEq] at h
        rw [← h.1] at hx
        exact hrep x hx
      · rename_i rep1 ops1 hstep
        split at h
        · exact absurd h (by simp)
        · rename_i rep2 ops2 hrest
          simp only [Except.ok.injEq, Prod.mk.injEq] at h
          rw [← h.1] at hx
          have hrep1 : ∀ y ∈ rep1, y.1 ≠ [] := by
            intro y hy
            have hpne : p ≠ [] := hneL (p, e) (List.mem_cons_self _ _)
            cases e with
            | file c m =>
              simp only [srcStep] at hstep
              rcases cf_fs_cases hstep with h1 | h1 <;> subst h1
              · exact hrep y hy
              · rcases mem_setEntry hy with h2 | h2
                · rw [h2]; exact hpne
                · exact hrep y h2
            | dir dm ds =>
              rcases srcStep_dir_inv hstep with ⟨h1, _, _⟩ | ⟨h1, _, _⟩ <;> subst h1
              · exact hrep y hy
              · rcases mem_mkdirSteps hy with h2 | ⟨i, _, hp2⟩
                · exact hrep y h2
                · rw [hp2]; exact take_ne_nil hpne i
          exact ih hrest (fun y hy => hneL y (List.mem_cons_of_mem _ hy)) hrep1 x hx

theorem cf_no_dir_ok {flp : Nat → Bool} {S R rel : FPath} {c : List Nat}
    {m : Int} {rep : FS}
    (hnd : ∀ e', lookupFS rep rel = some e' → isDirE e' = false) :
    ∃ r, compare_files flp S R rel c m rep = Except.ok r := by
  unfold compare_files
  cases hl : lookupFS rep rel with
  | none => exact ⟨_, rfl⟩
  | some de =>
    cases de with
    | file dc dm =>
      simp only [compare_core]
      by_cases hmeta : m = dm ∧ c.length = dc.length
      · rw [if_pos hmeta]; exact ⟨_, rfl⟩
      · rw [if_neg hmeta]
        by_cases hh : compute_hash c = compute_hash dc
        · rw [if_pos hh]; exact ⟨_, rfl⟩
        · rw [if_neg hh]; exact ⟨_, rfl⟩
    | dir dm ds =>
      have := hnd _ hl
      simp [isDirE] at this

/- ------------------------------------------------------------------
Unfolding equations for the phase walkers.
------------------------------------------------------------------ -/

theorem ssgo_cons_caught {σE : FPath → Option Err} {fl : FPath → Nat → Bool}
    {S R p : FPath} {e : Entry} {rest : List (FPath × Entry)} {rep : FS} {er : Err}
    (hσp : σE p = some er) (her : er ≠ Err.other) :
    sync_source_go σE fl S R ((p, e) :: rest) rep =
      Except.ok (rep, [Op.loggedErr er]) := by
  cases er with
  | other => exact absurd rfl her
  | notFound => simp [sync_source_go, hσp]
  | permission => simp [sync_source_go, hσp]

theorem ssgo_cons_none_ok {σE : FPath → Option Err} {fl : FPath → Nat → Bool}
    {S R p : FPath} {e : Entry} {rest : List (FPath × Entry)} {rep rep1 rep2 : FS}
    {ops1 ops2 : List Op}
    (hσp : σE p = none)
    (hstep : srcStep (fl p) S R p e rep = Except.ok (rep1, ops1))
    (hrest : sync_source_go σE fl S R rest rep1 = Except.ok (rep2, ops2)) :
    sync_source_go σE fl S R ((p, e) :: rest) rep =
      Except.ok (rep2, ops1 ++ ops2) := by
  simp [sync_source_go, hσp, hstep, hrest]

theorem srgo_cons_missing {ρE : FPath → Option Err} {src : FS} {R p : FPath}
    {e0 : Entry} {rest : List (FPath × Entry)} {rep : FS}
    (hl : lookupFS rep p = none) :
    sync_replica_go ρE src R ((p, e0) :: rest) rep =
      sync_replica_go ρE src R rest rep := by
  simp [sync_replica_go, hl]

theorem srgo_cons_caught {ρE : FPath → Option Err} {src : FS} {R p : FPath}
    {e0 e : Entry} {rest : List (FPath × Entry)} {rep : FS} {er : Err}
    (hl : lookupFS rep p = some e) (hρp : ρE p = some er) (her : er ≠ Err.other) :
    sync_replica_go ρE src R ((p, e0) :: rest) rep =
      Except.ok (rep, [Op.loggedErr er]) := by
  cases er with
  | other => exact absurd rfl her
  | notFound => simp [sync_replica_go, hl, hρp]
  | permission => simp [sync_replica_go, hl, hρp]

theorem srgo_cons_ok {ρE : FPath → Option Err} {src : FS} {R p : FPath}
    {e0 e : Entry} {rest : List (FPath × Entry)} {rep rep2 : FS} {ops2 : List Op}
    (hl : lookupFS rep p = some e) (hρp : ρE p = none)
    (hrest : sync_replica_go ρE src R rest (repStep src R p e rep).1 =
      Except.ok (rep2, ops2)) :
    sync_replica_go ρE src R ((p, e0) :: rest) rep =
      Except.ok (rep2, (repStep src R p e rep).2 ++ ops2) := by
  simp [sync_replica_go, hl, hρp, hrest]

theorem sync_folders_eq {σE ρE : FPath → Option Err} {fl : FPath → Nat → Bool}
    {S R : FPath} {src rep rep1 rep2 : FS} {ops1 ops2 : List Op}
    (h1 : sync_source_go σE fl S R (traversal src) rep = Except.ok (rep1, ops1))
    (h2 : sync_replica_go ρE src R (traversal rep1) rep1 = Except.ok (rep2, ops2)) :
    sync_folders σE ρE fl S R src rep =
      Except.ok (rep2, Op.syncStart :: (ops1 ++ ops2) ++ [Op.syncEnd]) := by
  simp [sync_folders, h1, h2]

/- ------------------------------------------------------------------
The source phase crashes only through an uncaught exception kind.
------------------------------------------------------------------ -/

theorem ss_no_crash {σE : FPath → Option Err} {fl : FPath → Nat → Bool}
    {S R : FPath} {src : FS} (hWF : WFt src)
    (hσ : ∀ p, σE p ≠ some Err.other) :
    ∀ {L : List (FPath × Entry)} {rep : FS},
      (∀ x ∈ L, x ∈ src) →
      (∀ q dm ds e', (q, Entry.dir dm ds) ∈ src →
        lookupFS rep q = some e' → isDirE e' = true) →
      (∀ q c m e', (q, Entry.file c m) ∈ src →
        lookupFS rep q = some e' → isDirE e' = false) →
      ∃ rep' ops, sync_source_go σE fl S R L rep = Except.ok (rep', ops) := by
  intro L
  induction L with
  | nil => intro rep _ _ _; exact ⟨rep, [], rfl⟩
  | cons hd rest ih =>
    obtain ⟨p, e⟩ := hd
    intro rep hsub hinv1 hinv2
    cases hσp : σE p with
    | some er =>
      have her : er ≠ Err.other := by
        intro hh
        exact hσ p (hh ▸ hσp)
      exact ⟨rep, [Op.loggedErr er], ssgo_cons_caught hσp her⟩
    | none =>
      have hpmem : (p, e) ∈ src := hsub _ (List.mem_cons_self _ _)
      have hstep : ∃ r, srcStep (fl p) S R p e rep = Except.ok r := by
        cases e with
        | file c m =>
          simp only [srcStep]
          apply cf_no_dir_ok
          intro e' he'
          exact hinv2 p c m e' hpmem he'
        | dir dm ds =>
          simp only [srcStep]
          by_cases hs : (lookupFS rep p).isSome
          · rw [if_pos hs]; exact ⟨_, rfl⟩
          · rw [if_neg hs]
            have hpc : prefsCompat rep p = true := by
              unfold prefsCompat
              rw [List.all_eq_true]
              intro i hi
              rw [List.mem_range] at hi
              cases hlq : lookupFS rep (p.take (i+1)) with
              | none => simp
              | some e' =>
                have hx := (hWF.2 (p, Entry.dir dm ds) hpmem).2 (i+1)
                  (show i + 1 < p.length by omega) (by omega)
                unfold dirAt at hx
                cases hsq : lookupFS src (p.take (i+1)) with
                | none => rw [hsq] at hx; cases hx
                | some e'' =>
                  rw [hsq] at hx
                  cases e'' with
                  | file c2 m2 => simp [isDirE] at hx
                  | dir dm2 ds2 =>
                    have := hinv1 _ dm2 ds2 e' (mem_of_lookup hsq) hlq
                    simp [this]
            rw [if_pos hpc]
            exact ⟨_, rfl⟩
      obtain ⟨⟨rep1, ops1⟩, hstep⟩ := hstep
      have hinv1' : ∀ q dm ds e', (q, Entry.dir dm ds) ∈ src →
          lookupFS rep1 q = some e' → isDirE e' = true := by
        intro q dm ds e' hq hl1
        cases e with
        | file c m =>
          simp only [srcStep] at hstep
          rcases cf_fs_cases hstep with h1 | h1 <;> subst h1
          · exact hinv1 q dm ds e' hq hl1
          · rw [lookup_setEntry] at hl1
            by_cases hpq : p = q
            · subst hpq
              have := entry_eq_of_nodup hWF.1 hpmem hq
              cases this
            · rw [if_neg hpq] at hl1
              exact hinv1 q dm ds e' hq hl1
        | dir dm0 ds0 =>
          rcases srcStep_dir_inv hstep with ⟨h1, _, _⟩ | ⟨h1, _, _⟩ <;> subst h1
          · exact hinv1 q dm ds e' hq hl1
          · rcases lookup_mkdirSteps_src hl1 with h2 | ⟨h2, i, hi, hq2⟩
            · exact hinv1 q dm ds e' hq h2
            · subst h2
              rfl
      have hinv2' : ∀ q c m e', (q, Entry.file c m) ∈ src →
          lookupFS rep1 q = some e' → isDirE e' = false := by
        intro q c m e' hq hl1
        cases e with
        | file c0 m0 =>
          simp only [srcStep] at hstep
          rcases cf_fs_cases hstep with h1 | h1 <;> subst h1
          · exact hinv2 q c m e' hq hl1
          · rw [lookup_setEntry] at hl1
            by_cases hpq : p = q
            · rw [if_pos hpq] at hl1
              rw [← Option.some_inj.mp hl1]
              rfl
            · rw [if_neg hpq] at hl1
              exact hinv2 q c m e' hq hl1
        | dir dm0 ds0 =>
          rcases srcStep_dir_inv hstep with ⟨h1, _, _⟩ | ⟨h1, _, _⟩ <;> subst h1
          · exact hinv2 q c m e' hq hl1
          · rcases lookup_mkdirSteps_src hl1 with h2 | ⟨h2, i, hi, hq2⟩
            · exact hinv2 q c m e' hq h2
            · exfalso
              rw [List.mem_range] at hi
              by_cases hilen : i + 1 = p.length
              · rw [hilen, List.take_length] at hq2
                subst hq2
                have := entry_eq_of_nodup hWF.1 hpmem hq
                cases this
              · have hi1 : i + 1 < p.length := by omega
                have hx := (hWF.2 (p, Entry.dir dm0 ds0) hpmem).2 (i+1) hi1 (by omega)
                unfold dirAt at hx
                have hlsrc : lookupFS src q = some (Entry.file c m) :=
                  lookup_eq_of_mem_nodup hWF.1 hq
                rw [← hq2, hlsrc] at hx
                simp [isDirE] at hx
      obtain ⟨rep2, ops2, hrest⟩ :=
        ih (fun x hx => hsub _ (List.mem_cons_of_mem _ hx)) hinv1' hinv2'
      exact ⟨rep2, ops1 ++ ops2, ssgo_cons_none_ok hσp hstep hrest⟩

/- ------------------------------------------------------------------
A second pass over an already synchronized tree does nothing.
------------------------------------------------------------------ -/

theorem ss_noop {fl : FPath → Nat → Bool} {S R : FPath} :
    ∀ {L : List (FPath × Entry)} {cur : FS},
      (∀ p c m, (p, Entry.file c m) ∈ L →
        ∃ e, lookupFS cur p = some e ∧ upToDate c m e) →
      (∀ p dm ds, (p, Entry.dir dm ds) ∈ L → (lookupFS cur p).isSome = true) →
      ∃ ops, sync_source_go noErr fl S R L cur = Except.ok (cur, ops) ∧
        attemptOps ops = 0 := by
  intro L
  induction L with
  | nil => intro cur _ _; exact ⟨[], rfl, rfl⟩
  | cons hd rest ih =>
    obtain ⟨p, e⟩ := hd
    intro cur hfile hdir
    have hstep : ∃ ops1, srcStep (fl p) S R p e cur = Except.ok (cur, ops1) ∧
        attemptOps ops1 = 0 := by
      cases e with
      | file c m =>
        obtain ⟨e', hl, hu⟩ := hfile p c m (List.mem_cons_self _ _)
        simp only [srcStep]
        exact cf_upToDate hl hu
      | dir dm ds =>
        have := hdir p dm ds (List.mem_cons_self _ _)
        simp only [srcStep]
        rw [if_pos this]
        exact ⟨[], rfl, rfl⟩
    obtain ⟨ops1, hstep, h01⟩ := hstep
    obtain ⟨ops2, hrest, h02⟩ :=
      ih (fun q c m hm => hfile q c m (List.mem_cons_of_mem _ hm))
        (fun q dm ds hm => hdir q dm ds (List.mem_cons_of_mem _ hm))
    refine ⟨ops1 ++ ops2, ssgo_cons_none_ok rfl hstep hrest, ?_⟩
    simp only [attemptOps, List.countP_append] at h01 h02 ⊢
    omega

/- ------------------------------------------------------------------
Lemmas about one replica-phase step.
------------------------------------------------------------------ -/

theorem repStep_cases (src : FS) (R p : FPath) (e : Entry) (rep : FS) :
    ((lookupFS src p).isSome = true ∧ repStep src R p e rep = (rep, [])) ∨
    (lookupFS src p = none ∧ isDirE e = true ∧
      repStep src R p e rep = (removeTree rep p, [Op.deletedDir (R ++ p)])) ∨
    (lookupFS src p = none ∧ isDirE e = false ∧
      repStep src R p e rep = (removeKey rep p, [Op.deletedFile (R ++ p)])) := by
  unfold repStep
  by_cases h1 : (lookupFS src p).isSome
  · rw [if_pos h1]
    exact Or.inl ⟨h1, rfl⟩
  · rw [if_neg h1]
    have h1' := Option.not_isSome_iff_eq_none.mp h1
    by_cases h2 : isDirE e
    · rw [if_pos h2]
      exact Or.inr (Or.inl ⟨h1', h2, rfl⟩)
    · rw [if_neg h2]
      exact Or.inr (Or.inr ⟨h1', by simpa using h2, rfl⟩)

theorem repStep_none_pers {src : FS} {R p : FPath} {e : Entry} {rep : FS}
    {q : FPath} (h : lookupFS rep q = none) :
    lookupFS (repStep src R p e rep).1 q = none := by
  rcases repStep_cases src R p e rep with ⟨_, h1⟩ | ⟨_, _, h1⟩ | ⟨_, _, h1⟩ <;>
    rw [h1]
  · exact h
  · by_cases hp : isPref p q = true
    · exact lookup_removeTree_pref rep p q hp
    · rw [lookup_removeTree_not rep p q (by simpa using hp)]
      exact h
  · rw [lookup_removeKey]
    by_cases hp : p = q
    · simp [hp]
    · simp only [if_neg hp]
      exact h

theorem repStep_alive {src : FS} {R p : FPath} {e : Entry} {rep : FS}
    {q : FPath} (h : lookupFS (repStep src R p e rep).1 q ≠ none) :
    lookupFS rep q ≠ none := by
  intro hc
  exact h (repStep_none_pers hc)

/- ------------------------------------------------------------------
Inductions over the replica phase.
------------------------------------------------------------------ -/

theorem sr_shrink {ρE : FPath → Option Err} {src : FS} {R : FPath} :
    ∀ {L : List (FPath × Entry)} {cur rep2 : FS} {ops : List Op},
      sync_replica_go ρE src R L cur = Except.ok (rep2, ops) →
      ∀ p, lookupFS cur p = none → lookupFS rep2 p = none := by
  intro L
  induction L with
  | nil =>
    intro cur rep2 ops h p hp
    simp only [sync_replica_go, Except.ok.injEq, Prod.mk.injEq] at h
    rw [← h.1]
    exact hp
  | cons hd rest ih =>
    obtain ⟨q, e0⟩ := hd
    intro cur rep2 ops h p hp
    simp only [sync_replica_go] at h
    split at h
    · exact ih h p hp
    · rename_i e heq
      split at h
      · exact absurd h (by simp)
      · simp only [Except.ok.injEq, Prod.mk.injEq] at h
        rw [← h.1]
        exact hp
      · split at h
        · exact absurd h (by simp)
        · rename_i rep2' ops2 hrest
          simp only [Except.ok.injEq, Prod.mk.injEq] at h
          rw [← h.1]
          exact ih hrest p (repStep_none_pers hp)

theorem sr_complete {ρE : FPath → Option Err} {src : FS} {R : FPath} :
    ∀ {L : List (FPath × Entry)} {cur rep2 : FS} {ops : List Op},
      sync_replica_go ρE src R L cur = Except.ok (rep2, ops) →
      failFree ops = true →
      (∀ p, lookupFS cur p ≠ none → lookupFS src p = none → ∃ e, (p, e) ∈ L) →
      ∀ p, lookupFS src p = none → lookupFS rep2 p = none := by
  intro L
  induction L with
  | nil =>
    intro cur rep2 ops h _ hin p hsrc
    simp only [sync_replica_go, Except.ok.injEq, Prod.mk.injEq] at h
    rw [← h.1]
    by_cases hc : lookupFS cur p = none
    · exact hc
    · rcases hin p hc hsrc with ⟨e, he⟩
      simp at he
  | cons hd rest ih =>
    obtain ⟨q, e0⟩ := hd
    intro cur rep2 ops h hff hin p hsrc
    simp only [sync_replica_go] at h
    split at h
    · rename_i heq
      refine ih h hff ?_ p hsrc
      intro p' hp' hsrc'
      rcases hin p' hp' hsrc' with ⟨e', he'⟩
      rcases List.mem_cons.mp he' with h1 | h1
      · injection h1 with h2 h3
        subst h2
        exact absurd heq hp'
      · exact ⟨e', h1⟩
    · rename_i e heq
      split at h
      · exact absurd h (by simp)
      · simp only [Except.ok.injEq, Prod.mk.injEq] at h
        rw [← h.2] at hff
        simp [failFree, isFailureOp] at hff
      · split at h
        · exact absurd h (by simp)
        · rename_i rep2' ops2 hrest
          simp only [Except.ok.injEq, Prod.mk.injEq] at h
          rw [← h.2] at hff
          simp only [failFree, List.all_append, Bool.and_eq_true] at hff
          rw [← h.1]
          refine ih hrest hff.2 ?_ p hsrc
          intro p' hp' hsrc'
          rcases hin p' (repStep_alive hp') hsrc' with ⟨e', he'⟩
          rcases List.mem_cons.mp he' with h1 | h1
          · injection h1 with h2 h3
            subst h2
            exfalso
            rcases repStep_cases src R p' e cur with ⟨h4, h5⟩ | ⟨h4, _, h5⟩ | ⟨h4, _, h5⟩
            · rw [hsrc'] at h4
              simp at h4
            · rw [h5] at hp'
              exact hp' (lookup_removeTree_pref cur p' p' (isPref_refl p'))
            · rw [h5] at hp'
              rw [lookup_removeKey] at hp'
              simp at hp'
          · exact ⟨e', h1⟩

theorem sr_keep {ρE : FPath → Option Err} {src : FS} {R : FPath}
    (hWF : WFt src) :
    ∀ {L : List (FPath × Entry)} {cur rep2 : FS} {ops : List Op},
      sync_replica_go ρE src R L cur = Except.ok (rep2, ops) →
      (∀ x ∈ L, x.1 ≠ []) →
      ∀ p e, (lookupFS src p).isSome = true → lookupFS cur p = some e →
        lookupFS rep2 p = some e := by
  intro L
  induction L with
  | nil =>
    intro cur rep2 ops h _ p e _ hp
    simp only [sync_replica_go, Except.ok.injEq, Prod.mk.injEq] at h
    rw [← h.1]
    exact hp
  | cons hd rest ih =>
    obtain ⟨q, e0⟩ := hd
    intro cur rep2 ops h hne p e hsrc hp
    simp only [sync_replica_go] at h
    split at h
    · exact ih h (fun x hx => hne x (List.mem_cons_of_mem _ hx)) p e hsrc hp
    · rename_i eq heq
      split at h
      · exact absurd h (by simp)
      · simp only [Except.ok.injEq, Prod.mk.injEq] at h
        rw [← h.1]
        exact hp
      · split at h
        · exact absurd h (by simp)
        · rename_i rep2' ops2 hrest
          simp only [Except.ok.injEq, Prod.mk.injEq] at h
          rw [← h.1]
          have hstep : lookupFS (repStep src R q eq cur).1 p = some e := by
            rcases repStep_cases src R q eq cur with ⟨_, h5⟩ | ⟨h4, _, h5⟩ | ⟨h4, _, h5⟩ <;>
              rw [h5]
            · exact hp
            · have hnp : isPref q p = false := by
                by_contra hc
                have hc' : isPref q p = true := by simpa using hc
                by_cases hqp : q = p
                · subst hqp
                  rw [h4] at hsrc
                  simp at hsrc
                · have hlen : q.length < p.length := by
                    have h6 := isPref_length_le hc'
                    rcases Nat.lt_or_ge q.length p.length with h7 | h7
                    · exact h7
                    · exfalso
                      have h8 : q.length = p.length := by omega
                      have h9 := isPref_take_eq hc'
                      rw [h8, List.take_length] at h9
                      exact hqp h9.symm
                  rcases Option.isSome_iff_exists.mp hsrc with ⟨esrc, hesrc⟩
                  have hx := (hWF.2 (p, esrc) (mem_of_lookup hesrc)).2 q.length hlen
                    (List.length_pos.mpr (hne (q, e0) (List.mem_cons_self _ _)))
                  unfold dirAt at hx
                  rw [isPref_take_eq hc'] at hx
                  rw [h4] at hx
                  cases hx
              rw [lookup_removeTree_not cur q p hnp]
              exact hp
            · rw [lookup_removeKey]
              have hqp : q ≠ p := by
                intro hh
                subst hh
                rw [h4] at hsrc
                simp at hsrc
              rw [if_neg hqp]
              exact hp
          exact ih hrest (fun x hx => hne x (List.mem_cons_of_mem _ hx)) p e hsrc hstep

theorem sr_del_exists {ρE : FPath → Option Err} {src : FS} {R : FPath} :
    ∀ {L : List (FPath × Entry)} {cur rep2 : FS} {ops : List Op},
      sync_replica_go ρE src R L cur = Except.ok (rep2, ops) →
      ∀ o ∈ ops, ∀ a, deleteTarget o = some a →
        ∃ q, a = R ++ q ∧ lookupFS cur q ≠ none ∧ lookupFS src q = none := by
  intro L
  induction L with
  | nil =>
    intro cur rep2 ops h o ho
    simp only [sync_replica_go, Except.ok.injEq, Prod.mk.injEq] at h
    rw [← h.2] at ho
    simp at ho
  | cons hd rest ih =>
    obtain ⟨q, e0⟩ := hd
    intro cur rep2 ops h o ho a ha
    simp only [sync_replica_go] at h
    split at h
    · exact ih h o ho a ha
    · rename_i e heq
      split at h
      · exact absurd h (by simp)
      · simp only [Except.ok.injEq, Prod.mk.injEq] at h
        rw [← h.2] at ho
        simp at ho
        subst ho
        simp [deleteTarget] at ha
      · split at h
        · exact absurd h (by simp)
        · rename_i rep2' ops2 hrest
          simp only [Except.ok.injEq, Prod.mk.injEq] at h
          rw [← h.2] at ho
          rcases List.mem_append.mp ho with h1 | h1
          · rcases repStep_cases src R q e cur with ⟨_, h5⟩ | ⟨h4, _, h5⟩ | ⟨h4, _, h5⟩ <;>
              rw [h5] at h1
            · simp at h1
            · simp at h1
              subst h1
              simp only [deleteTarget, Option.some_inj] at ha
              refine ⟨q, ha.symm, ?_, h4⟩
              rw [heq]
              simp
            · simp at h1
              subst h1
              simp only [deleteTarget, Option.some_inj] at ha
              refine ⟨q, ha.symm, ?_, h4⟩
              rw [heq]
              simp
          · rcases ih hrest o h1 a ha with ⟨q2, hq2, halive, hsrc2⟩
            exact ⟨q2, hq2, repStep_alive halive, hsrc2⟩

theorem sr_noRevisit {ρE : FPath → Option Err} {src : FS} {R : FPath} :
    ∀ {L : List (FPath × Entry)} {cur rep2 : FS} {ops : List Op},
      sync_replica_go ρE src R L cur = Except.ok (rep2, ops) →
      List.Pairwise noReentry ops := by
  intro L
  induction L with
  | nil =>
    intro cur rep2 ops h
    simp only [sync_replica_go, Except.ok.injEq, Prod.mk.injEq] at h
    rw [← h.2]
    exact List.Pairwise.nil
  | cons hd rest ih =>
    obtain ⟨q, e0⟩ := hd
    intro cur rep2 ops h
    simp only [sync_replica_go] at h
    split at h
    · exact ih h
    · rename_i e heq
      split at h
      · exact absurd h (by simp)
      · simp only [Except.ok.injEq, Prod.mk.injEq] at h
        rw [← h.2]
        exact List.pairwise_singleton _ _
      · split at h
        · exact absurd h (by simp)
        · rename_i rep2' ops2 hrest
          simp only [Except.ok.injEq, Prod.mk.injEq] at h
          rw [← h.2]
          rcases repStep_cases src R q e cur with ⟨_, h5⟩ | ⟨h4, _, h5⟩ | ⟨h4, _, h5⟩ <;>
            rw [h5]
          · simp only [List.nil_append]
            exact ih hrest
          · simp only [List.cons_append, List.nil_append]
            refine List.Pairwise.cons ?_ (ih hrest)
            intro o2 ho2 d pth h1 h2
            injection h1 with h1'
            subst h1'
            rcases sr_del_exists hrest o2 ho2 pth h2 with ⟨q2, hq2, halive, _⟩
            subst hq2
            rw [isPref_append]
            by_contra hc
            have hc' : isPref q q2 = true := by simpa using hc
            have halive' : lookupFS (removeTree cur q) q2 ≠ none := by
              rw [h5] at halive
              exact halive
            exact halive' (lookup_removeTree_pref cur q q2 hc')
          · simp only [List.cons_append, List.nil_append]
            refine List.Pairwise.cons ?_ (ih hrest)
            intro o2 ho2 d pth h1 h2
            cases h1

theorem sr_muts {ρE : FPath → Option Err} {src : FS} {R : FPath} :
    ∀ {L : List (FPath × Entry)} {cur rep2 : FS} {ops : List Op},
      sync_replica_go ρE src R L cur = Except.ok (rep2, ops) →
      ∀ o ∈ ops, ∀ t, mutTarget o = some t → ∃ q, t = R ++ q := by
  intro L
  induction L with
  | nil =>
    intro cur rep2 ops h o ho
    simp only [sync_replica_go, Except.ok.injEq, Prod.mk.injEq] at h
    rw [← h.2] at ho
    simp at ho
  | cons hd rest ih =>
    obtain ⟨q, e0⟩ := hd
    intro cur rep2 ops h o ho t ht
    simp only [sync_replica_go] at h
    split at h
    · exact ih h o ho t ht
    · rename_i e heq
      split at h
      · exact absurd h (by simp)
      · simp only [Except.ok.injEq, Prod.mk.injEq] at h
        rw [← h.2] at ho
        simp at ho
        subst ho
        simp [mutTarget] at ht
      · split at h
        · exact absurd h (by simp)
        · rename_i rep2' ops2 hrest
          simp only [Except.ok.injEq, Prod.mk.injEq] at h
          rw [← h.2] at ho
          rcases List.mem_append.mp ho with h1 | h1
          · rcases repStep_cases src R q e cur with ⟨_, h5⟩ | ⟨h4, _, h5⟩ | ⟨h4, _, h5⟩ <;>
              rw [h5] at h1
            · simp at h1
            · simp at h1
              subst h1
              simp only [mutTarget, Option.some_inj] at ht
              exact ⟨q, ht.symm⟩
            · simp at h1
              subst h1
              simp only [mutTarget, Option.some_inj] at ht
              exact ⟨q, ht.symm⟩
          · exact ih hrest o h1 t ht

theorem sr_no_crash {ρE : FPath → Option Err} {src : FS} {R : FPath}
    (hρ : ∀ p, ρE p ≠ some Err.other) :
    ∀ (L : List (FPath × Entry)) (cur : FS),
      ∃ rep2 ops, sync_replica_go ρE src R L cur = Except.ok (rep2, ops) := by
  intro L
  induction L with
  | nil => intro cur; exact ⟨cur, [], rfl⟩
  | cons hd rest ih =>
    obtain ⟨q, e0⟩ := hd
    intro cur
    cases hl : lookupFS cur q with
    | none =>
      obtain ⟨rep2, ops, hrec⟩ := ih cur
      exact ⟨rep2, ops, by rw [srgo_cons_missing hl]; exact hrec⟩
    | some e =>
      cases hρp : ρE q with
      | some er =>
        have her : er ≠ Err.other := by
          intro hh
          exact hρ q (hh ▸ hρp)
        exact ⟨cur, [Op.loggedErr er], srgo_cons_caught hl hρp her⟩
      | none =>
        obtain ⟨rep2, ops, hrec⟩ := ih (repStep src R q e cur).1
        exact ⟨rep2, (repStep src R q e cur).2 ++ ops,
          srgo_cons_ok hl hρp hrec⟩

theorem sr_noop {src : FS} {R : FPath} :
    ∀ {L : List (FPath × Entry)} {cur : FS},
      (∀ x ∈ L, (lookupFS src x.1).isSome = true ∨ lookupFS cur x.1 = none) →
      sync_replica_go noErr src R L cur = Except.ok (cur, []) := by
  intro L
  induction L with
  | nil => intro cur _; rfl
  | cons hd rest ih =>
    obtain ⟨q, e0⟩ := hd
    intro cur hkeep
    cases hl : lookupFS cur q with
    | none =>
      rw [srgo_cons_missing hl]
      exact ih (fun x hx => hkeep x (List.mem_cons_of_mem _ hx))
    | some e =>
      have hsrc : (lookupFS src q).isSome = true := by
        rcases hkeep (q, e0) (List.mem_cons_self _ _) with h1 | h1
        · exact h1
        · rw [h1] at hl
          cases hl
      have hstep : repStep src R q e cur = (cur, []) := by
        unfold repStep
        rw [if_pos hsrc]
      have hrec : sync_replica_go noErr src R rest cur = Except.ok (cur, []) :=
        ih (fun x hx => hkeep x (List.mem_cons_of_mem _ hx))
      have h3 : sync_replica_go noErr src R ((q, e0) :: rest) cur =
          Except.ok (cur, (repStep src R q e cur).2 ++ []) :=
        srgo_cons_ok hl rfl (by rw [hstep]; exact hrec)
      rw [hstep] at h3
      simpa using h3

/- ------------------------------------------------------------------
Top-level assembly lemmas.
------------------------------------------------------------------ -/

theorem sync_folders_inv {σE ρE : FPath → Option Err} {fl : FPath → Nat → Bool}
    {S R : FPath} {src rep rep2 : FS} {ops : List Op}
    (h : sync_folders σE ρE fl S R src rep = Except.ok (rep2, ops)) :
    ∃ rep1 ops1 ops2,
      sync_source_go σE fl S R (traversal src) rep = Except.ok (rep1, ops1) ∧
      sync_replica_go ρE src R (traversal rep1) rep1 = Except.ok (rep2, ops2) ∧
      ops = Op.syncStart :: (ops1 ++ ops2) ++ [Op.syncEnd] := by
  unfold sync_folders at h
  split at h
  · exact absurd h (by simp)
  · rename_i rep1 ops1 h1
    split at h
    · exact absurd h (by simp)
    · rename_i rep2' ops2 h2
      simp only [Except.ok.injEq, Prod.mk.injEq] at h
      exact ⟨rep1, ops1, ops2, h1, h.1 ▸ h2, h.2.symm⟩

theorem failFree_parts {ops1 ops2 : List Op}
    (h : failFree (Op.syncStart :: (ops1 ++ ops2) ++ [Op.syncEnd]) = true) :
    failFree ops1 = true ∧ failFree ops2 = true := by
  simp only [failFree, List.all_append, List.all_cons, Bool.and_eq_true] at h ⊢
  exact ⟨h.1.2.1, h.1.2.2⟩

theorem traversal_sub {src : FS} : ∀ x ∈ traversal src, x ∈ src :=
  fun _ hx => mem_traversal.mp hx

theorem traversal_ne_paths {src : FS} (hWF : WFt src) :
    ∀ x ∈ traversal src, x.1 ≠ [] :=
  fun x hx => (hWF.2 x (mem_traversal.mp hx)).1

theorem ne_paths_traversal_of {fs : FS} (h : ∀ x ∈ fs, x.1 ≠ []) :
    ∀ x ∈ traversal fs, x.1 ≠ [] :=
  fun x hx => h x (mem_traversal.mp hx)

theorem isDeleteOp_false_of_none {o : Op} (h : deleteTarget o = none) :
    isDeleteOp o = false := by
  cases o <;> first
  | rfl
  | simp [deleteTarget] at h

theorem noReentry_of_target_none_left {o1 o2 : Op}
    (h : deleteTarget o1 = none) : noReentry o1 o2 := by
  intro d p h1 h2
  rw [h1] at h
  simp [deleteTarget] at h

theorem noReentry_of_target_none_right {o1 o2 : Op}
    (h : deleteTarget o2 = none) : noReentry o1 o2 := by
  intro d p h1 h2
  rw [h] at h2
  cases h2

theorem pairwise_of_no_del {l : List Op} (h : ∀ o ∈ l, deleteTarget o = none) :
    List.Pairwise noReentry l := by
  induction l with
  | nil => exact List.Pairwise.nil
  | cons a t ih =>
    refine List.Pairwise.cons ?_ (ih (fun o ho => h o (List.mem_cons_of_mem _ ho)))
    intro o2 _
    exact noReentry_of_target_none_left (h a (List.mem_cons_self _ _))

/- ------------------------------------------------------------------
Verification of the frozen claims.
------------------------------------------------------------------ -/

/-- C10: the content digest function computes the MD5 of the file's
entire byte content: folding the incremental MD5 handle over fixed
4096-byte chunks yields the same digest as hashing the whole content in
one step, equal contents yield equal digests, and digests differ
exactly when the one-step MD5 digests differ. -/
theorem C10_digest_of_whole_content :
    (∀ c : List Nat, compute_hash c = md5hex c) ∧
    (∀ c1 c2 : List Nat, c1 = c2 → compute_hash c1 = compute_hash c2) ∧
    (∀ c1 c2 : List Nat,
      (compute_hash c1 ≠ compute_hash c2) ↔ (md5hex c1 ≠ md5hex c2)) := by
  refine ⟨compute_hash_eq_md5hex, ?_, ?_⟩
  · intro c1 c2 h
    rw [h]
  · intro c1 c2
    rw [compute_hash_eq_md5hex, compute_hash_eq_md5hex]

/-- Witness for C10 at concrete contents. -/
theorem C10_witness :
    compute_hash [1, 2, 3] = md5hex [1, 2, 3] ∧
    compute_hash [1, 2, 3] = compute_hash [1, 2, 3] ∧
    ((compute_hash [1] ≠ compute_hash [2]) ↔ (md5hex [1] ≠ md5hex [2])) :=
  ⟨C10_digest_of_whole_content.1 [1, 2, 3],
   C10_digest_of_whole_content.2.1 [1, 2, 3] [1, 2, 3] rfl,
   C10_digest_of_whole_content.2.2 [1] [2]⟩

/-- C5: when every attempt of a copy fails, exactly max_retries attempts
occur (the attempt counter starts at 1 and retries while it is below
max_retries), the destination tree is left unchanged, the final failure
is logged, and the copy operation returns normally - it is a total
function whose result the cycle keeps consuming, so no exception
propagates. -/
theorem C5_retry_bound (flp : Nat → Bool) (S R rel : FPath) (c : List Nat)
    (m : Int) (rep : FS) (maxr : Nat)
    (hall : ∀ n, flp n = true) (hpos : 1 ≤ maxr) :
    (copy_file flp S R rel c m rep maxr 1).1 = rep ∧
    attemptOps (copy_file flp S R rel c m rep maxr 1).2 = maxr ∧
    Op.copyGaveUp (S ++ rel) (R ++ rel) ∈ (copy_file flp S R rel c m rep maxr 1).2 :=
  copy_file_allfail S R rel c m rep maxr hall hpos

/-- C2: with the destination present, the change detector skips - with no
hashing and no copy attempt - exactly when mtime and size both match,
whatever the contents are; when either differs it digests both files
and invokes the copy pipeline exactly when the digests differ. -/
theorem C2_change_detector (flp : Nat → Bool) (S R rel : FPath) (c : List Nat)
    (m : Int) (rep : FS) :
    (∀ e, lookupFS rep rel = some e → e.statMtime = m → e.statSize = c.length →
      compare_files flp S R rel c m rep =
        Except.ok (rep, [Op.skippedMeta (S ++ rel)])) ∧
    (∀ dc dm, lookupFS rep rel = some (Entry.file dc dm) →
      (dm ≠ m ∨ dc.length ≠ c.length) →
      ∃ fs2 rest, compare_files flp S R rel c m rep =
          Except.ok (fs2, Op.hashed (S ++ rel) :: Op.hashed (R ++ rel) :: rest) ∧
        (1 ≤ attemptOps rest ↔ compute_hash c ≠ compute_hash dc) ∧
        (compute_hash c = compute_hash dc → fs2 = rep ∧ rest = [Op.skippedHash (S ++ rel)])) := by
  constructor
  · intro e hl hm hs
    unfold compare_files
    rw [hl]
    cases e with
    | file dc dm =>
      simp only [compare_core]
      rw [if_pos ⟨hm.symm, hs.symm⟩]
    | dir dm ds =>
      simp only [compare_core]
      rw [if_pos ⟨hm.symm, hs.symm⟩]
  · intro dc dm hl hne
    unfold compare_files
    rw [hl]
    simp only [compare_core]
    have hmeta : ¬ (m = dm ∧ c.length = dc.length) := by
      intro hc
      rcases hne with h1 | h1
      · exact h1 hc.1.symm
      · exact h1 hc.2.symm
    rw [if_neg hmeta]
    by_cases hh : compute_hash c = compute_hash dc
    · rw [if_pos hh]
      refine ⟨rep, [Op.skippedHash (S ++ rel)], rfl, ?_, fun _ => ⟨rfl, rfl⟩⟩
      constructor
      · intro hc
        simp [attemptOps, List.countP_cons, isAttemptOp] at hc
      · intro hc
        exact absurd hh hc
    · rw [if_neg hh]
      refine ⟨(copy_file flp S R rel c m rep 3 1).1,
        (copy_file flp S R rel c m rep 3 1).2, rfl, ?_, fun hc => absurd hc hh⟩
      constructor
      · intro _
        exact hh
      · intro _
        exact copy_attempt_pos flp S R rel c m rep 3 1 (by omega)

/-- C1: for a source file whose replica path does not exist, the change
detector takes the missing branch and invokes the copy pipeline, and a
cycle that completes without failures leaves the replica file present
with content (and mtime) identical to the source file. -/
theorem C1_missing_file_copied (σE ρE : FPath → Option Err)
    (fl : FPath → Nat → Bool) (S R : FPath) (src rep rep2 : FS) (ops : List Op)
    (p : FPath) (c : List Nat) (m : Int)
    (hWF : WFt src) (hne : ∀ x ∈ rep, x.1 ≠ [])
    (hmem : (p, Entry.file c m) ∈ src) (hmiss : lookupFS rep p = none)
    (hok : sync_folders σE ρE fl S R src rep = Except.ok (rep2, ops))
    (hff : failFree ops = true) :
    (∀ (fs : FS) (fl2 : Nat → Bool), lookupFS fs p = none →
      ∃ r, compare_files fl2 S R p c m fs = Except.ok r ∧ 1 ≤ attemptOps r.2) ∧
    lookupFS rep2 p = some (Entry.file c m) := by
  constructor
  · intro fs fl2 hl
    exact cf_missing hl
  · obtain ⟨rep1, ops1, ops2, h1, h2, hops⟩ := sync_folders_inv hok
    subst hops
    obtain ⟨hff1, hff2⟩ := failFree_parts hff
    have hrep1 : lookupFS rep1 p = some (Entry.file c m) :=
      ss_missing_copied hWF h1 hff1 traversal_sub
        (nodup_keys_traversal hWF.1) p c m (mem_traversal.mpr hmem) hmiss
    have hne1 : ∀ x ∈ traversal rep1, x.1 ≠ [] :=
      ne_paths_traversal_of (ss_ne_paths h1 (traversal_ne_paths hWF) hne)
    exact sr_keep hWF h2 hne1 p (Entry.file c m)
      (lookup_isSome_of_mem hmem) hrep1

/-- C3: after a cycle that completes without failures, every replica path
absent from the source is gone (a stale directory is removed with its
whole subtree by one rmtree), and the log shows that once a directory
was removed no later deletion touches it or anything below it. -/
theorem C3_stale_entries_deleted (σE ρE : FPath → Option Err)
    (fl : FPath → Nat → Bool) (S R : FPath) (src rep rep2 : FS) (ops : List Op)
    (hok : sync_folders σE ρE fl S R src rep = Except.ok (rep2, ops))
    (hff : failFree ops = true) :
    (∀ p, lookupFS src p = none → lookupFS rep2 p = none) ∧ noRevisit ops := by
  obtain ⟨rep1, ops1, ops2, h1, h2, hops⟩ := sync_folders_inv hok
  subst hops
  obtain ⟨hff1, hff2⟩ := failFree_parts hff
  constructor
  · intro p hp
    refine sr_complete h2 hff2 ?_ p hp
    intro p' hp' _
    rcases Option.isSome_iff_exists.mp (Option.ne_none_iff_isSome.mp hp') with ⟨e, he⟩
    exact ⟨e, mem_traversal.mpr (mem_of_lookup he)⟩
  · unfold noRevisit
    have hdel1 : ∀ o ∈ ops1, deleteTarget o = none := ss_del_none h1
    rw [List.pairwise_append]
    refine ⟨?_, List.pairwise_singleton _ _, ?_⟩
    · refine List.Pairwise.cons ?_ ?_
      · intro o2 _
        exact noReentry_of_target_none_left rfl
      · rw [List.pairwise_append]
        exact ⟨pairwise_of_no_del hdel1, sr_noRevisit h2,
          fun a ha b _ => noReentry_of_target_none_left (hdel1 a ha)⟩
    · intro a _ b hb
      simp only [List.mem_singleton] at hb
      subst hb
      exact noReentry_of_target_none_right rfl

/-- C9: the replica-scan phase keeps every replica entry whose relative
path exists under the source root, even when the kinds disagree,
because the retention test is a kind-blind existence check on the
source path; no deletion in the phase log targets such a path. -/
theorem C9_kind_blind_retention (ρE : FPath → Option Err) (src : FS)
    (R : FPath) (cur rep2 : FS) (ops : List Op) (p : FPath) (e : Entry)
    (hWF : WFt src) (hne : ∀ x ∈ cur, x.1 ≠ [])
    (hsrc : (lookupFS src p).isSome = true) (hcur : lookupFS cur p = some e)
    (hok : sync_replica_go ρE src R (traversal cur) cur = Except.ok (rep2, ops)) :
    lookupFS rep2 p = some e ∧ ∀ o ∈ ops, deleteTarget o ≠ some (R ++ p) := by
  constructor
  · exact sr_keep hWF hok (ne_paths_traversal_of hne) p e hsrc hcur
  · intro o ho hdel
    rcases sr_del_exists hok o ho _ hdel with ⟨q, hq, _, hqsrc⟩
    have hqp : q = p := (List.append_cancel_left hq).symm
    subst hqp
    rw [hqsrc] at hsrc
    cases hsrc

/-- C6: a cycle that completed without failures is a fixed point: running
a second cycle on the resulting replica tree, with no intervening
change, returns the same tree and performs zero copy attempts and zero
deletions. -/
theorem C6_second_cycle_noop (σE ρE : FPath → Option Err)
    (fl : FPath → Nat → Bool) (S R : FPath) (src rep rep2 : FS) (ops : List Op)
    (hWF : WFt src) (hne : ∀ x ∈ rep, x.1 ≠ [])
    (h1 : sync_folders σE ρE fl S R src rep = Except.ok (rep2, ops))
    (hff : failFree ops = true) :
    ∃ ops2, sync_folders noErr noErr noFail S R src rep2 = Except.ok (rep2, ops2) ∧
      ops2.countP isAttemptOp = 0 ∧ ops2.countP isDeleteOp = 0 := by
  obtain ⟨rep1, ops1, opsr, hss, hsr, hops⟩ := sync_folders_inv h1
  subst hops
  obtain ⟨hff1, hff2⟩ := failFree_parts hff
  have hne1 : ∀ x ∈ traversal rep1, x.1 ≠ [] :=
    ne_paths_traversal_of (ss_ne_paths hss (traversal_ne_paths hWF) hne)
  have hfile2 : ∀ p c m, (p, Entry.file c m) ∈ traversal src →
      ∃ e, lookupFS rep2 p = some e ∧ upToDate c m e := by
    intro p c m hm
    obtain ⟨e, he, hu⟩ :=
      ss_files_upToDate hss hff1 (nodup_keys_traversal hWF.1) p c m hm
    exact ⟨e, sr_keep hWF hsr hne1 p e
      (lookup_isSome_of_mem (mem_traversal.mp hm)) he, hu⟩
  have hdir2 : ∀ p dm ds, (p, Entry.dir dm ds) ∈ traversal src →
      (lookupFS rep2 p).isSome = true := by
    intro p dm ds hm
    have hs1 := ss_dirs_present hss hff1 (traversal_ne_paths hWF) p dm ds hm
    rcases Option.isSome_iff_exists.mp hs1 with ⟨e, he⟩
    rw [sr_keep hWF hsr hne1 p e (lookup_isSome_of_mem (mem_traversal.mp hm)) he]
    rfl
  obtain ⟨ops1', hss2, h0⟩ := ss_noop hfile2 hdir2
  have hcomplete : ∀ p, lookupFS src p = none → lookupFS rep2 p = none := by
    intro p hp
    refine sr_complete hsr hff2 ?_ p hp
    intro p' hp' _
    rcases Option.isSome_iff_exists.mp (Option.ne_none_iff_isSome.mp hp') with ⟨e, he⟩
    exact ⟨e, mem_traversal.mpr (mem_of_lookup he)⟩
  have hsr2 : sync_replica_go noErr src R (traversal rep2) rep2 =
      Except.ok (rep2, []) := by
    apply sr_noop
    intro x hx
    obtain ⟨xp, xe⟩ := x
    by_cases hsx : (lookupFS src xp).isSome
    · exact Or.inl hsx
    · exfalso
      have halive := lookup_isSome_of_mem (mem_traversal.mp hx)
      rw [hcomplete xp (Option.not_isSome_iff_eq_none.mp hsx)] at halive
      cases halive
  refine ⟨Op.syncStart :: (ops1' ++ []) ++ [Op.syncEnd],
    sync_folders_eq hss2 hsr2, ?_, ?_⟩
  · have h0' : ops1'.countP isAttemptOp = 0 := h0
    simp [List.countP_append, List.countP_cons, List.countP_nil,
      isAttemptOp, h0']
  · have hdel' : ∀ o ∈ ops1', deleteTarget o = none := ss_del_none hss2
    have h0d : ops1'.countP isDeleteOp = 0 := by
      rw [List.countP_eq_zero]
      intro o ho
      simp [isDeleteOp_false_of_none (hdel' o ho)]
    simp [List.countP_append, List.countP_cons, List.countP_nil,
      isDeleteOp, h0d]

/-- C8: every operation of a cycle that writes or deletes targets an
absolute path under the replica root, and when the two roots are
disjoint (neither a prefix of the other, which is what makes them two
separate trees) no such operation targets a path under the source
root; the source tree itself is a read-only input of the cycle. -/
theorem C8_mutations_under_replica_root (σE ρE : FPath → Option Err)
    (fl : FPath → Nat → Bool) (S R : FPath) (src rep rep2 : FS) (ops : List Op)
    (hok : sync_folders σE ρE fl S R src rep = Except.ok (rep2, ops))
    (hd1 : isPref S R = false) (hd2 : isPref R S = false) :
    (∀ o ∈ ops, ∀ t, mutTarget o = some t → ∃ q, t = R ++ q) ∧
    (∀ o ∈ ops, ∀ t, mutTarget o = some t → isPref S t = false) := by
  obtain ⟨rep1, ops1, ops2, h1, h2, hops⟩ := sync_folders_inv hok
  subst hops
  have hmain : ∀ o ∈ Op.syncStart :: (ops1 ++ ops2) ++ [Op.syncEnd],
      ∀ t, mutTarget o = some t → ∃ q, t = R ++ q := by
    intro o ho t ht
    rcases List.mem_append.mp ho with ho' | ho'
    · rcases List.mem_cons.mp ho' with ho'' | ho''
      · subst ho''
        simp [mutTarget] at ht
      · rcases List.mem_append.mp ho'' with h3 | h3
        · exact ss_muts h1 o h3 t ht
        · exact sr_muts h2 o h3 t ht
    · simp only [List.mem_singleton] at ho'
      subst ho'
      simp [mutTarget] at ht
  refine ⟨hmain, ?_⟩
  intro o ho t ht
  rcases hmain o ho t ht with ⟨q, hq⟩
  subst hq
  by_contra hc
  have hc' : isPref S (R ++ q) = true := by simpa using hc
  rcases isPref_append_cases hc' with h | h
  · rw [h] at hd1
    cases hd1
  · rw [h] at hd2
    cases hd2

/-- C7: an interrupt arriving at any modelled point of the sync loop -
at the start of an iteration or during the inter-cycle sleep - is
caught by the handler wrapping the whole loop: the loop logs a
shutdown message and returns the interrupted result normally instead
of propagating the interrupt (provided the run did not already crash
through an uncaught cycle exception before the interrupt). -/
theorem C7_interrupt_clean_shutdown (intC intS : Nat → Bool)
    (σE ρE : FPath → Option Err) (fl : FPath → Nat → Bool) (S R : FPath)
    (src : FS) :
    ∀ (fuel k : Nat) (rep : FS),
      (∃ j, j < fuel ∧ (intC (k + j) = true ∨ intS (k + j) = true)) →
      (∀ e, (start_sync_loop intC intS σE ρE fl S R src fuel k rep).1 ≠
        LoopResult.crashed e) →
      (start_sync_loop intC intS σE ρE fl S R src fuel k rep).1 =
        LoopResult.interrupted ∧
      Op.shutdownLogged ∈
        (start_sync_loop intC intS σE ρE fl S R src fuel k rep).2.2 := by
  intro fuel
  induction fuel with
  | zero =>
    intro k rep hfire _
    rcases hfire with ⟨j, hj, _⟩
    omega
  | succ n ih =>
    intro k rep hfire hnc
    by_cases hic : intC k
    · constructor
      · simp [start_sync_loop, hic]
      · simp [start_sync_loop, hic]
    · cases hcyc : sync_folders σE ρE fl S R src rep with
      | error e =>
        exfalso
        apply hnc e
        simp [start_sync_loop, hic, hcyc]
      | ok r =>
        obtain ⟨rep1, ops1⟩ := r
        by_cases his : intS k
        · constructor
          · simp [start_sync_loop, hic, hcyc, his]
          · simp [start_sync_loop, hic, hcyc, his]
        · have heq : start_sync_loop intC intS σE ρE fl S R src (n+1) k rep =
              ((start_sync_loop intC intS σE ρE fl S R src n (k+1) rep1).1,
               (start_sync_loop intC intS σE ρE fl S R src n (k+1) rep1).2.1,
               ops1 ++
                 (start_sync_loop intC intS σE ρE fl S R src n (k+1) rep1).2.2) := by
            simp [start_sync_loop, hic, hcyc, his]
          have hfire' : ∃ j, j < n ∧
              (intC (k + 1 + j) = true ∨ intS (k + 1 + j) = true) := by
            rcases hfire with ⟨j, hj, hor⟩
            cases j with
            | zero =>
              simp only [Nat.add_zero] at hor
              rcases hor with h | h
              · exact absurd h hic
              · exact absurd h his
            | succ j' =>
              refine ⟨j', by omega, ?_⟩
              rw [show k + 1 + j' = k + (j' + 1) by omega]
              exact hor
          have hnc' : ∀ e,
              (start_sync_loop intC intS σE ρE fl S R src n (k+1) rep1).1 ≠
                LoopResult.crashed e := by
            intro e hce
            apply hnc e
            rw [heq]
            exact hce
          obtain ⟨ha, hb⟩ := ih (k+1) rep1 hfire' hnc'
          constructor
          · rw [heq]
            exact ha
          · rw [heq]
            exact List.mem_append.mpr (Or.inr hb)

/-- C4 amended: a FileNotFoundError or PermissionError raised while an
entry is being processed is caught by the handler that wraps the whole
phase loop: the error is logged and the remainder of that phase is
skipped, yet the cycle itself still runs to completion (both phases
return normally and the finish of the cycle is logged) and the error
does not escape the cycle.  The hypotheses restrict the environment to
those two caught exception kinds and rule out the kind-conflict
layouts whose IsADirectoryError or NotADirectoryError belongs to the
propagating kinds. -/
theorem C4_amended_phase_abort (σE ρE : FPath → Option Err)
    (fl : FPath → Nat → Bool) (S R : FPath) (src rep : FS)
    (hWF : WFt src)
    (hσ : ∀ p, σE p ≠ some Err.other) (hρ : ∀ p, ρE p ≠ some Err.other)
    (hk1 : ∀ q dm ds e', (q, Entry.dir dm ds) ∈ src →
      lookupFS rep q = some e' → isDirE e' = true)
    (hk2 : ∀ q c m e', (q, Entry.file c m) ∈ src →
      lookupFS rep q = some e' → isDirE e' = false) :
    ∃ rep2 ops, sync_folders σE ρE fl S R src rep = Except.ok (rep2, ops) ∧
      Op.syncEnd ∈ ops := by
  obtain ⟨rep1, ops1, h1⟩ := ss_no_crash hWF hσ traversal_sub hk1 hk2
  obtain ⟨rep2, ops2, h2⟩ := sr_no_crash hρ (traversal rep1) rep1
  refine ⟨rep2, _, sync_folders_eq h1 h2, ?_⟩
  simp

/-- C4 counterexample, refuting the claim as stated.  First part: with a
PermissionError raised at the first source entry a.txt, the rest of the
phase does not run - the other source file b.txt, which a
benign-environment cycle would copy, is absent from the replica after
the cycle.  Second part: an unexpected exception kind raised while an
entry is processed is not caught anywhere in the cycle, so the cycle
does not return normally. -/
theorem C4_counterexample :
    (¬ ∀ rep2 ops, sync_folders c4errPerm noErr noFail ["S"] ["R"] c4src [] =
        Except.ok (rep2, ops) → (lookupFS rep2 ["b.txt"]).isSome = true) ∧
    (¬ ∃ r, sync_folders c4errOther noErr noFail ["S"] ["R"] c4src [] =
        Except.ok r) := by
  constructor
  · intro h
    have := h [] [Op.syncStart, Op.loggedErr Err.permission, Op.syncEnd] (by rfl)
    simp [lookupFS] at this
  · rintro ⟨r, hr⟩
    have hres : sync_folders c4errOther noErr noFail ["S"] ["R"] c4src [] =
        Except.error Err.other := by rfl
    rw [hres] at hr
    cases hr

set_option maxRecDepth 100000

/-- Witness for C4 amended: the permission error fires at a.txt, yet the
cycle returns normally and logs its finish. -/
theorem C4_amended_witness :
    ∃ rep2 ops, sync_folders c4errPerm noErr noFail ["S"] ["R"] c4src [] =
        Except.ok (rep2, ops) ∧ Op.syncEnd ∈ ops :=
  C4_amended_phase_abort c4errPerm noErr noFail ["S"] ["R"] c4src []
    (by decide)
    (by intro p; by_cases h : p = ["a.txt"] <;> simp [c4errPerm, h])
    (by intro p; simp [noErr])
    (by intro q dm ds e' _ hl; simp [lookupFS] at hl)
    (by intro q c m e' _ hl; simp [lookupFS] at hl)

/-- Witness for C1 at the spec scenario: source a/b.txt, replica empty;
after the cycle the file exists in the replica with identical content. -/
theorem C1_witness :
    (∀ (fs : FS) (fl2 : Nat → Bool), lookupFS fs ["a", "b.txt"] = none →
      ∃ r, compare_files fl2 ["S"] ["R"] ["a", "b.txt"]
          [104, 101, 108, 108, 111] 7 fs = Except.ok r ∧ 1 ≤ attemptOps r.2) ∧
    lookupFS w1rep2 ["a", "b.txt"] =
      some (Entry.file [104, 101, 108, 108, 111] 7) :=
  C1_missing_file_copied noErr noErr noFail ["S"] ["R"] w1src [] w1rep2 w1ops
    ["a", "b.txt"] [104, 101, 108, 108, 111] 7
    (by decide) (by decide) (by decide) (by decide) (by rfl) (by decide)

/-- Witness for C6: rerunning the cycle on the synchronized replica of
the witness scenario changes nothing. -/
theorem C6_witness :
    ∃ ops2, sync_folders noErr noErr noFail ["S"] ["R"] w1src w1rep2 =
        Except.ok (w1rep2, ops2) ∧
      ops2.countP isAttemptOp = 0 ∧ ops2.countP isDeleteOp = 0 :=
  C6_second_cycle_noop noErr noErr noFail ["S"] ["R"] w1src [] w1rep2 w1ops
    (by decide) (by decide) (by rfl) (by decide)

/-- Witness for C3 at the stale-subtree scenario. -/
theorem C3_witness :
    (∀ p, lookupFS w3src p = none → lookupFS w3rep2 p = none) ∧
    noRevisit w3ops :=
  C3_stale_entries_deleted noErr noErr noFail ["S"] ["R"] w3src w3rep
    w3rep2 w3ops (by rfl) (by decide)

/-- Witness for C9: the replica directory d survives the replica scan
although the source entry of the same path is a file. -/
theorem C9_witness :
    lookupFS [(["d"], Entry.dir 0 0)] ["d"] = some (Entry.dir 0 0) ∧
    ∀ o ∈ [Op.deletedFile ["R", "d", "x"]],
      deleteTarget o ≠ some (["R"] ++ ["d"]) :=
  C9_kind_blind_retention noErr w9src ["R"] w9cur [(["d"], Entry.dir 0 0)]
    [Op.deletedFile ["R", "d", "x"]] ["d"] (Entry.dir 0 0)
    (by decide) (by decide) (by decide) (by decide) (by rfl)

/-- Witness for C8 with disjoint roots named S and R. -/
theorem C8_witness :
    (∀ o ∈ w8ops, ∀ t, mutTarget o = some t → ∃ q, t = ["R"] ++ q) ∧
    (∀ o ∈ w8ops, ∀ t, mutTarget o = some t → isPref ["S"] t = false) :=
  C8_mutations_under_replica_root noErr noErr noFail ["S"] ["R"] w8src []
    [(["f"], Entry.file [1] 0)] w8ops (by rfl) (by decide) (by decide)

/-- Witness for C5 at the default max_retries of 3: three attempts, the
tree untouched, the final failure logged. -/
theorem C5_witness :
    (copy_file (fun _ => true) ["S"] ["R"] ["f"] [1] 0 [] 3 1).1 = [] ∧
    attemptOps (copy_file (fun _ => true) ["S"] ["R"] ["f"] [1] 0 [] 3 1).2 = 3 ∧
    Op.copyGaveUp (["S"] ++ ["f"]) (["R"] ++ ["f"]) ∈
      (copy_file (fun _ => true) ["S"] ["R"] ["f"] [1] 0 [] 3 1).2 :=
  C5_retry_bound (fun _ => true) ["S"] ["R"] ["f"] [1] 0 [] 3
    (fun _ => rfl) (by decide)

/-- Witness for C2: the adversarial same-metadata different-content file
is skipped with no hashing and no copy; with a differing mtime both
files are digested and the copy pipeline runs because the digests
differ. -/
theorem C2_witness :
    (compare_files (fun _ => false) ["S"] ["R"] ["f"] [1, 2] 5 w2repA =
      Except.ok (w2repA, [Op.skippedMeta (["S"] ++ ["f"])])) ∧
    (∃ fs2 rest, compare_files (fun _ => false) ["S"] ["R"] ["f"] [1, 2] 5 w2repB =
        Except.ok (fs2, Op.hashed (["S"] ++ ["f"]) :: Op.hashed (["R"] ++ ["f"]) :: rest) ∧
      (1 ≤ attemptOps rest ↔ compute_hash [1, 2] ≠ compute_hash [9, 9]) ∧
      (compute_hash [1, 2] = compute_hash [9, 9] →
        fs2 = w2repB ∧ rest = [Op.skippedHash (["S"] ++ ["f"])])) :=
  ⟨(C2_change_detector (fun _ => false) ["S"] ["R"] ["f"] [1, 2] 5 w2repA).1
      (Entry.file [9, 9] 5) (by decide) (by decide) (by decide),
   (C2_change_detector (fun _ => false) ["S"] ["R"] ["f"] [1, 2] 5 w2repB).2
      [9, 9] 6 (by decide) (Or.inl (by decide))⟩

/-- Witness for C7: the interrupt fires at the very first iteration and
the loop returns the interrupted result with the shutdown message
logged. -/
theorem C7_witness :
    (start_sync_loop (fun _ => true) (fun _ => false) noErr noErr noFail
      ["S"] ["R"] [] 1 0 []).1 = LoopResult.interrupted ∧
    Op.shutdownLogged ∈ (start_sync_loop (fun _ => true) (fun _ => false)
      noErr noErr noFail ["S"] ["R"] [] 1 0 []).2.2 :=
  C7_interrupt_clean_shutdown (fun _ => true) (fun _ => false) noErr noErr
    noFail ["S"] ["R"] [] 1 0 []
    ⟨0, by decide, Or.inl rfl⟩
    (by
      intro e h
      rw [show (start_sync_loop (fun _ => true) (fun _ => false) noErr noErr
        noFail ["S"] ["R"] [] 1 0 []).1 = LoopResult.interrupted from rfl] at h
      cases h)

end FolderSync
